import Mathlib

/-!
Shallow embedding of the ailint configuration-resolution and rule-assembly
engine (TypeScript sources: ai-spec-block-parser, config-loader,
directory-scanner, send-rules-to-ai), together with theorems settling the
frozen claims about it.

Strings are modelled by Lean `String` (a wrapper around `List Char`);
JavaScript string operations (`trim`, `split`, `startsWith`, `includes`,
regex matching for the three fixed regexes of the source) are embedded as
executable functions below.  Directory paths are modelled as `List String`
in deepest-component-first order, so `dirname` is `List.tail` and the
filesystem root is `[]`.
-/

namespace Ailint

/-- JS `String.prototype.includes(sub)` as a Boolean scanner over char lists. -/
def listIncludes (needle : List Char) : List Char → Bool
  | [] => needle = []
  | c :: rest => (needle.isPrefixOf (c :: rest)) || listIncludes needle rest

/-- JS `hay.includes(needle)`. -/
def strIncludes (hay needle : String) : Bool :=
  listIncludes needle.data hay.data

/-- `Mentions msg sub`: the string `sub` occurs verbatim inside `msg`. -/
def Mentions (msg sub : String) : Prop :=
  sub.data <:+: msg.data

instance (msg sub : String) : Decidable (Mentions msg sub) := by
  unfold Mentions; infer_instance

/-- `joinSep sep [x1, ..., xn] = x1 ++ sep ++ x2 ++ ... ++ sep ++ xn`
(the JS `Array.prototype.join`). -/
def joinSep (sep : String) : List String → String
  | [] => ""
  | [x] => x
  | x :: y :: rest => x ++ sep ++ joinSep sep (y :: rest)

/-! ## Data model (interfaces/ailintconfig.ts, interfaces/ai-spec-rule.ts) -/

/-- `ApiConfig`: the four API-parameter strings. -/
structure ApiConfig where
  baseUrl : String
  modelName : String
  apiKey : String
  temperature : String
deriving DecidableEq

/-- `Partial<ApiConfig>`: a rule override with each field optional. -/
structure ApiOverride where
  baseUrl : Option String
  modelName : Option String
  apiKey : Option String
  temperature : Option String
deriving DecidableEq

/-- `AISpecBlock`: one annotation fragment. -/
structure AISpecBlock where
  specification : String
  source : String
  filePath : String
  startLine : Nat
  endLine : Nat
deriving DecidableEq

/-- `AISpecRule`: a rule name with its ordered fragment list. -/
structure AISpecRule where
  name : String
  blocks : List AISpecBlock
deriving DecidableEq

/-! ## SendRulesToAI: batching (send-rules-to-ai.ts, chunkRules) -/

/-- One verdict entry returned by the oracle collaborator. -/
structure RuleVerdict where
  pass : Bool
  reason : Option String
deriving DecidableEq

abbrev ValidationResult := List (String × RuleVerdict)

/-- The `SendRulesToAI` service state.  `fmtXML` is the wire-serialization
collaborator (`formatRulesToXML`, realized by fast-xml-parser in the source);
`directoryScanner`, when present, is the `resolveApiConfigForFile` operation
of the injected `DirectoryScanner`. -/
structure SendRulesToAI where
  maxChunkSize : Nat
  fmtXML : List AISpecRule → String
  directoryScanner : Option (String → String → Option ApiConfig)
  fallbackApiConfig : Option ApiConfig

/-- `this.formatRulesToXML([rule]).length`: a single rule's serialized size. -/
def ruleSize (S : SendRulesToAI) (r : AISpecRule) : Nat :=
  (S.fmtXML [r]).length

/-- The loop body of `chunkRules`: `cur` is `currentChunk`, `size` is
`currentSize`; a new batch starts when adding the next rule would exceed
`maxChunkSize` and the current batch is non-empty. -/
def chunkAux (maxChunkSize : Nat) (sz : AISpecRule → Nat) :
    List AISpecRule → List AISpecRule → Nat → List (List AISpecRule)
  | [], cur, _ => if cur = [] then [] else [cur]
  | r :: rest, cur, size =>
    if maxChunkSize < size + sz r ∧ cur ≠ [] then
      cur :: chunkAux maxChunkSize sz rest [r] (sz r)
    else
      chunkAux maxChunkSize sz rest (cur ++ [r]) (size + sz r)

/-- `chunkRules` (send-rules-to-ai.ts lines 221-244). -/
def chunkRules (S : SendRulesToAI) (rules : List AISpecRule) :
    List (List AISpecRule) :=
  chunkAux S.maxChunkSize (ruleSize S) rules [] 0

/-- Total serialized size of a batch (the running `currentSize` accumulator). -/
def sumSize (S : SendRulesToAI) (c : List AISpecRule) : Nat :=
  (c.map (ruleSize S)).sum

/-- Size of the first rule of a batch (0 for an empty batch). -/
def headSize (S : SendRulesToAI) : List AISpecRule → Nat
  | [] => 0
  | r :: _ => ruleSize S r

/-! Sample data used by witness theorems. -/

def rA : AISpecRule := ⟨"aaa", []⟩

def rB : AISpecRule := ⟨"bbb", []⟩

/-- A concrete `SendRulesToAI` instance with a toy serializer whose
single-rule rendering is the rule name, and a ceiling of 5 characters. -/
def sampleS : SendRulesToAI :=
  ⟨5, fun rs => joinSep "" (rs.map (fun r => r.name)), none, none⟩

/-! ## Block parser (ai-spec-block-parser.ts, the multi-name variant)

The two regexes of the source are fixed:
`beginRegex = AI_SPEC_BEGIN\(([^)]+)\):\s*"([^"]*)"` and
`endRegex = AI_SPEC_END\(([^)]+)\)`.  Since each regex starts with a
literal and each quantified class excludes the character that must follow
it, JS regex matching for them is equivalent to: scan the line left to
right for the literal, then deterministically consume a maximal run. -/

/-- JS whitespace as matched by the regex class backslash-s (ASCII part). -/
def isJsSpace (c : Char) : Bool :=
  c = ' ' || c = '\t' || c = '\n' || c = '\r' || c = '\x0b' || c = '\x0c'

/-- JS `String.prototype.trim` over the character list. -/
def jsTrimList (l : List Char) : List Char :=
  ((l.dropWhile isJsSpace).reverse.dropWhile isJsSpace).reverse

/-- JS `s.trim()`. -/
def jsTrim (s : String) : String := ⟨jsTrimList s.data⟩

/-- Concatenation of a list of strings (JS repeated `+=`). -/
def strConcat : List String → String
  | [] => ""
  | s :: rest => s ++ strConcat rest

/-- Strip an exact prefix, or fail. -/
def stripPre : List Char → List Char → Option (List Char)
  | [], l => some l
  | _ :: _, [] => none
  | p :: ps, c :: cs => if p = c then stripPre ps cs else none

/-- `splitAtChar stop l = some (run, rest)` iff `l = run ++ stop :: rest`
with `stop` not occurring in `run` (the maximal-run consumption of the
regex class that excludes `stop`, followed by `stop` itself). -/
def splitAtChar (stop : Char) : List Char → Option (List Char × List Char)
  | [] => none
  | c :: rest =>
    if c = stop then some ([], rest)
    else
      match splitAtChar stop rest with
      | none => none
      | some (a, b) => some (c :: a, b)

/-- Attempt the begin-regex at the start of `l`; on success return the
two capture groups (raw rule-name text, specification text). -/
def tryBeginAt (l : List Char) : Option (List Char × List Char) :=
  match stripPre "AI_SPEC_BEGIN(".data l with
  | none => none
  | some r1 =>
    match splitAtChar ')' r1 with
    | none => none
    | some (names, r2) =>
      if names = [] then none
      else
        match r2 with
        | ':' :: r3 =>
          match r3.dropWhile isJsSpace with
          | '"' :: r4 =>
            match splitAtChar '"' r4 with
            | none => none
            | some (spec, _) => some (names, spec)
          | _ => none
        | _ => none

/-- `line.match(beginRegex)`: captures of the leftmost match, if any. -/
def findBeginMatch : List Char → Option (List Char × List Char)
  | [] => none
  | c :: rest =>
    match tryBeginAt (c :: rest) with
    | some x => some x
    | none => findBeginMatch rest

/-- Attempt the end-regex at the start of `l`; on success return the
raw rule-name capture. -/
def tryEndAt (l : List Char) : Option (List Char) :=
  match stripPre "AI_SPEC_END(".data l with
  | none => none
  | some r1 =>
    match splitAtChar ')' r1 with
    | none => none
    | some (names, _) => if names = [] then none else some names

/-- `line.match(endRegex)`: capture of the leftmost match, if any. -/
def findEndMatch : List Char → Option (List Char)
  | [] => none
  | c :: rest =>
    match tryEndAt (c :: rest) with
    | some x => some x
    | none => findEndMatch rest

/-- `ruleNamesStr.split(',').map(name => name.trim())`. -/
def splitTrimNames (raw : List Char) : List String :=
  (raw.splitOn ',').map (fun cs => jsTrim ⟨cs⟩)

/-- The mutable locals of `parseFile`: the insertion-ordered `rules` map,
`currentRuleNames` and `currentBlock`. -/
structure ParserState where
  rules : List AISpecRule
  currentRuleNames : Option (List String)
  currentBlock : Option AISpecBlock

/-- `if (!rules.has(ruleName)) rules.set(ruleName, {name, blocks: []})`. -/
def rulesInsert (rs : List AISpecRule) (n : String) : List AISpecRule :=
  if rs.any (fun r => r.name = n) then rs else rs ++ [⟨n, []⟩]

/-- `rules.get(ruleName).blocks.push(block)`. -/
def rulesPush (b : AISpecBlock) (rs : List AISpecRule) (n : String) : List AISpecRule :=
  rs.map (fun r => if r.name = n then ⟨r.name, r.blocks ++ [b]⟩ else r)

/-- One iteration of the line loop of `parseFile` (0-based index `i`). -/
def parseStep (filePath : String) (i : Nat) (st : ParserState) (line : String) :
    ParserState :=
  if line = "" then st
  else
    match findBeginMatch line.data with
    | some (namesRaw, spec) =>
      let names := splitTrimNames namesRaw
      { rules := names.foldl rulesInsert st.rules
        currentRuleNames := some names
        currentBlock := some ⟨jsTrim ⟨spec⟩, "", filePath, i + 1, 0⟩ }
    | none =>
      match findEndMatch line.data with
      | some endRaw =>
        let endNames := splitTrimNames endRaw
        match st.currentRuleNames, st.currentBlock with
        | some ns, some b =>
          if ns = endNames then
            { rules := ns.foldl
                (rulesPush ⟨b.specification, jsTrim b.source, b.filePath,
                            b.startLine, i + 1⟩)
                st.rules
              currentRuleNames := none
              currentBlock := none }
          else
            { rules := st.rules, currentRuleNames := none, currentBlock := none }
        | _, _ =>
          { rules := st.rules, currentRuleNames := none, currentBlock := none }
      | none =>
        match st.currentRuleNames, st.currentBlock with
        | some _, some b =>
          { st with
            currentBlock := some ⟨b.specification, b.source ++ line ++ "\n",
                                  b.filePath, b.startLine, b.endLine⟩ }
        | _, _ => st

/-- The `for (let i = 0; ...)` loop of `parseFile`. -/
def parseLoop (filePath : String) : List String → Nat → ParserState → ParserState
  | [], _, st => st
  | line :: rest, i, st => parseLoop filePath rest (i + 1) (parseStep filePath i st line)

/-- `parseFile` on a pre-split list of lines: run the loop, then drop the
rules with no blocks. -/
def parseFileLines (filePath : String) (lines : List String) : List AISpecRule :=
  (parseLoop filePath lines 0 ⟨[], none, none⟩).rules.filter
    (fun r => !r.blocks.isEmpty)

/-- `content.split('\n')`. -/
def splitLinesJs (content : String) : List String :=
  (content.data.splitOn (Char.ofNat 10)).map (fun l => ⟨l⟩)

/-- `AISpecBlockParser.parseFile`, with the file content passed in place of
the file read (I/O boundary). -/
def parseFile (filePath content : String) : List AISpecRule :=
  parseFileLines filePath (splitLinesJs content)

/-- The source text a matched pair accumulates from the lines strictly
between the markers: each non-empty line followed by a newline (the
`if (!line) continue` guard of the source skips empty lines). -/
def collectSource (body : List String) : String :=
  strConcat ((body.filter (fun l => l ≠ "")).map (fun l => l ++ "\n"))

/-- The rules map has an entry named `n`. -/
def hasEntry (rs : List AISpecRule) (n : String) : Prop :=
  ∃ r ∈ rs, r.name = n

/-! ## Config loader (config-loader.ts) -/

/-- `isValidRulePattern`: no asterisk at all, or exactly one asterisk that
is the final character of a length-&gt;1 pattern. -/
def isValidRulePattern (p : String) : Bool :=
  if p.data.count '*' = 0 then true
  else if p.data.count '*' = 1 ∧ p.data.getLast? = some '*' ∧ 1 < p.data.length then true
  else false

/-- The spec-side notion of a rejected override key: it contains a wildcard
and is not a non-empty wildcard-free literal prefix followed by exactly one
trailing asterisk. -/
def specBadPattern (p : String) : Prop :=
  '*' ∈ p.data ∧
    ¬ ∃ pre : String, pre ≠ "" ∧ '*' ∉ pre.data ∧ p = pre ++ "*"

def invalidPatternMsg (p configPath : String) : String :=
  "Invalid rule pattern \"" ++ p ++ ("\" in " ++ (configPath ++
  ". Pattern must be either an exact rule name or a prefix followed by a single asterisk (e.g., \"prefix_*\"). Patterns like \"prefix_*_suffix\" are not allowed."))

def duplicatePatternMsg (p configPath : String) : String :=
  "Duplicate rule pattern \"" ++ p ++ ("\" found in apiConfigRuleOverrides in " ++ configPath)

/-- The key loop of `validateRulePatterns`: duplicate check against `seen`,
then the pattern-shape check. -/
def validateRulePatternsGo (configPath : String) : List String → List String → Except String Unit
  | [], _ => .ok ()
  | p :: rest, seen =>
    if p ∈ seen then .error (duplicatePatternMsg p configPath)
    else if isValidRulePattern p then validateRulePatternsGo configPath rest (p :: seen)
    else .error (invalidPatternMsg p configPath)

/-- `validateRulePatterns(overrides, configPath)`. -/
def validateRulePatterns (overrides : List (String × ApiOverride)) (configPath : String) :
    Except String Unit :=
  validateRulePatternsGo configPath (overrides.map Prod.fst) []

/-- A directory path: components listed deepest-first, `[]` being the
filesystem root (`dirname` is `List.tail`, and `dirname root = root`). -/
abbrev Dir := List String

def parentDir : Dir → Dir
  | [] => []
  | _ :: t => t

/-- Render a directory as an absolute path string. -/
def dirStr (d : Dir) : String :=
  "/" ++ joinSep "/" d.reverse

/-- The path of the `ailintconfig.json` inside a directory. -/
def configPathStr (d : Dir) : String :=
  dirStr d ++ "/ailintconfig.json"

/-- Parsed content of an `ailintconfig.json` file (every field optional,
as in the JSON). -/
structure RawConfig where
  baseConfig : Option String
  includeExtensions : Option (List String)
  includeMimeTypes : Option (List String)
  ignore : Option (List String)
  useGitIgnore : Option Bool
  apiConfig : Option ApiConfig
  apiConfigRuleOverrides : Option (List (String × ApiOverride))
deriving DecidableEq

/-- A fully resolved configuration (the output of `loadConfig`). -/
structure AilintConfig where
  baseConfig : String
  includeExtensions : List String
  includeMimeTypes : List String
  ignore : List String
  useGitIgnore : Option Bool
  apiConfig : Option ApiConfig
  apiConfigRuleOverrides : Option (List (String × ApiOverride))
deriving DecidableEq

/-- The ConfigLoader with its collaborators: `fs d` is the parsed content of
`d/ailintconfig.json` when that file exists, and `base` is the parsed static
base config (`ailintconfig.base.json`). -/
structure Loader where
  fs : Dir → Option RawConfig
  base : RawConfig

/-- `config.baseConfig = config.baseConfig || 'parent'` (the omitted case
defaults to parent-inheritance). -/
def effectiveBaseMode (rc : RawConfig) : String :=
  rc.baseConfig.getD "parent"

/-- The `baseConfig === 'empty'` branch of `mergeWithBase`. -/
def mergeEmpty (rc : RawConfig) : AilintConfig :=
  ⟨"empty", rc.includeExtensions.getD [], rc.includeMimeTypes.getD [],
   rc.ignore.getD [], rc.useGitIgnore, rc.apiConfig, rc.apiConfigRuleOverrides⟩

/-- The `baseConfig === 'parent'` merge: baseline lists first, local lists
appended; scalars local-wins (`??` / `||`). -/
def mergeOnParent (rc : RawConfig) (parent : AilintConfig) : AilintConfig :=
  ⟨parent.baseConfig,
   parent.includeExtensions ++ rc.includeExtensions.getD [],
   parent.includeMimeTypes ++ rc.includeMimeTypes.getD [],
   parent.ignore ++ rc.ignore.getD [],
   (match rc.useGitIgnore with | some b => some b | none => parent.useGitIgnore),
   (match rc.apiConfig with | some c => some c | none => parent.apiConfig),
   (match rc.apiConfigRuleOverrides with
    | some o => some o
    | none => parent.apiConfigRuleOverrides)⟩

/-- The `baseConfig === 'default'` merge against the static base config. -/
def mergeOnDefault (rc base : RawConfig) : AilintConfig :=
  ⟨"default",
   base.includeExtensions.getD [] ++ rc.includeExtensions.getD [],
   base.includeMimeTypes.getD [] ++ rc.includeMimeTypes.getD [],
   base.ignore.getD [] ++ rc.ignore.getD [],
   (match rc.useGitIgnore with | some b => some b | none => base.useGitIgnore),
   (match rc.apiConfig with | some c => some c | none => base.apiConfig),
   (match rc.apiConfigRuleOverrides with
    | some o => some o
    | none => base.apiConfigRuleOverrides)⟩

def noParentMsg (configDir : String) : String :=
  "No parent configuration found for directory \"" ++ configDir ++
  ("\". When using baseConfig: \"parent\", there must be a parent ailintconfig.json with baseConfig set to \"empty\" or \"default\" somewhere in the directory hierarchy.")

def invalidBaseConfigMsg (bc : String) : String :=
  "Invalid baseConfig value: " ++ bc ++
  (". Must be \x27empty\x27, \x27default\x27, or \x27parent\x27.")

def failLoadMsg (configPath msg : String) : String :=
  "Failed to load config from " ++ configPath ++ (": " ++ msg)

/-- The pattern validation applied when the config declares overrides. -/
def validateOverridesOf (rc : RawConfig) (configPath : String) : Except String Unit :=
  match rc.apiConfigRuleOverrides with
  | some ovs => validateRulePatterns ovs configPath
  | none => .ok ()

mutual

/-- `mergeWithBase(config, configDir)`.  The `fuel` argument bounds the
mutual recursion depth; every theorem below supplies enough fuel, so the
`"recursion limit"` branch is never reached there (the source would simply
keep walking). -/
def mergeWithBase (L : Loader) : Nat → RawConfig → Dir → Except String AilintConfig
  | 0, _, _ => .error "recursion limit"
  | fuel + 1, rc, dir =>
    if effectiveBaseMode rc = "empty" then .ok (mergeEmpty rc)
    else if effectiveBaseMode rc = "parent" then
      match findParentConfig L fuel dir with
      | .error e => .error e
      | .ok none => .error (noParentMsg (dirStr dir))
      | .ok (some parent) => .ok (mergeOnParent rc parent)
    else .ok (mergeOnDefault rc L.base)
termination_by fuel _ dir => 4 * fuel + 3 * dir.length + 1
decreasing_by
  simp_wf
  omega

/-- `findParentConfig(startDir)`: start the walk at the parent directory. -/
def findParentConfig (L : Loader) : Nat → Dir → Except String (Option AilintConfig)
  | fuel, startDir => walkParents L fuel (parentDir startDir)
termination_by fuel startDir => 4 * fuel + 3 * startDir.length + 4
decreasing_by
  simp_wf
  cases startDir
  all_goals simp [parentDir]
  all_goals try omega

/-- The `while (true)` walk of `findParentConfig`: try each directory in
turn (its catch swallows every error whose message does not contain
`Invalid baseConfig`), stopping at the filesystem root. -/
def walkParents (L : Loader) : Nat → Dir → Except String (Option AilintConfig)
  | fuel, cur =>
    match tryLoadAt L fuel cur with
    | .error e => .error e
    | .ok (some cfg) => .ok (some cfg)
    | .ok none =>
      match cur with
      | [] => .ok none
      | _ :: parent => walkParents L fuel parent
termination_by fuel cur => 4 * fuel + 3 * cur.length + 3
decreasing_by
  all_goals simp_wf

/-- The try/catch body of one iteration of `findParentConfig`: `.ok none`
means "no config here, or an error was swallowed — keep walking". -/
def tryLoadAt (L : Loader) (fuel : Nat) (cur : Dir) : Except String (Option AilintConfig) :=
  match L.fs cur with
  | none => .ok none
  | some rc =>
    if effectiveBaseMode rc ≠ "empty" ∧ effectiveBaseMode rc ≠ "default" ∧
        effectiveBaseMode rc ≠ "parent" then
      .error (invalidBaseConfigMsg (effectiveBaseMode rc))
    else
      match validateOverridesOf rc (configPathStr cur) with
      | .error e => if strIncludes e "Invalid baseConfig" then .error e else .ok none
      | .ok () =>
        match mergeWithBase L fuel rc cur with
        | .error e => if strIncludes e "Invalid baseConfig" then .error e else .ok none
        | .ok cfg => .ok (some cfg)
termination_by 4 * fuel + 3 * cur.length + 2
decreasing_by
  simp_wf
  try omega

end

/-- `loadConfig(configPath)`: read, default and validate `baseConfig`,
validate override patterns, merge — with the whole body wrapped in the
`Failed to load config from …` catch. -/
def loadConfig (L : Loader) (fuel : Nat) (dir : Dir) : Except String AilintConfig :=
  match L.fs dir with
  | none => .error (failLoadMsg (configPathStr dir) "ENOENT: no such file or directory")
  | some rc =>
    let body : Except String AilintConfig :=
      if effectiveBaseMode rc ≠ "empty" ∧ effectiveBaseMode rc ≠ "default" ∧
          effectiveBaseMode rc ≠ "parent" then
        .error (invalidBaseConfigMsg (effectiveBaseMode rc))
      else
        match validateOverridesOf rc (configPathStr dir) with
        | .error e => .error e
        | .ok () => mergeWithBase L fuel rc dir
    match body with
    | .error e => .error (failLoadMsg (configPathStr dir) e)
    | .ok c => .ok c

def rcParentOnly : RawConfig := ⟨none, none, none, none, none, none, none⟩

def rcBaseStatic : RawConfig :=
  ⟨some "empty", some [".ts"], some [], some [], some true, none, none⟩

def loaderC7 : Loader :=
  ⟨fun d => if d = ["proj"] then some rcParentOnly else none, rcBaseStatic⟩

def ovEmpty : ApiOverride := ⟨none, none, none, none⟩

def rcBadPattern : RawConfig :=
  ⟨some "empty", none, none, none, none, none, some [("*", ovEmpty)]⟩

def loaderC8 : Loader :=
  ⟨fun d => if d = ["proj"] then some rcBadPattern else none, rcBaseStatic⟩

/-! ## Environment-variable expansion (config-loader.ts, expandApiConfig)

The replacement regex is the fixed `\$\{([^}]+)\}` applied globally; since
the capture class excludes the closing brace that must follow it, matching
is equivalent to a deterministic left-to-right scan. -/

def lbrace : Char := Char.ofNat 123

def rbrace : Char := Char.ofNat 125

/-- The environment collaborator: variables parsed from .env files by
dotenv, and the process environment. -/
structure Env where
  dotenv : String → Option String
  procEnv : String → Option String

/-- JS `a || b` where `a` is a possibly-undefined string: the empty string
is falsy. -/
def jsOrOpt (o : Option String) (alt : String) : String :=
  match o with
  | some v => if v = "" then alt else v
  | none => alt

/-- `varExpression.split(':-')` followed by taking the head as the variable
name and re-joining the tail as the default text: name before the first
`:-`, default after it (empty when there is none). -/
def splitVarExpr : List Char → List Char × List Char
  | [] => ([], [])
  | ':' :: '-' :: rest => ([], rest)
  | c :: rest =>
    let p := splitVarExpr rest
    (c :: p.1, p.2)

/-- `expanded.parsed?.[varName] || process.env[varName] || defaultValue`. -/
def resolveVar (e : Env) (cap : List Char) : String :=
  let p := splitVarExpr cap
  jsOrOpt (e.dotenv ⟨p.1⟩) (jsOrOpt (e.procEnv ⟨p.1⟩) ⟨p.2⟩)

/-- Consume the `([^}]+)\}` tail of the placeholder regex: the maximal
brace-free run and what follows the closing brace. -/
def takeCapture : (l : List Char) →
    Option (List Char × {rest : List Char // rest.length < l.length})
  | [] => none
  | c :: rest =>
    if c = rbrace then some ([], ⟨rest, by simp⟩)
    else
      match takeCapture rest with
      | none => none
      | some (a, ⟨b, hb⟩) =>
        some (c :: a, ⟨b, by simp only [List.length_cons]; omega⟩)

/-- The global `value.replace(/\$\{([^}]+)\}/g, ...)` scan. -/
def expandChars (e : Env) : List Char → List Char
  | [] => []
  | [c] => [c]
  | c1 :: c2 :: rest =>
    if c1 = '$' ∧ c2 = lbrace then
      match takeCapture rest with
      | some (cap, rest2) =>
        if cap = [] then c1 :: expandChars e (c2 :: rest)
        else (resolveVar e cap).data ++ expandChars e rest2.val
      | none => c1 :: expandChars e (c2 :: rest)
    else c1 :: expandChars e (c2 :: rest)
termination_by l => l.length
decreasing_by
  all_goals simp_wf
  all_goals try omega

/-- `value.includes('${')`. -/
def hasDollarBrace : List Char → Bool
  | [] => false
  | [_] => false
  | c1 :: c2 :: rest => (c1 == '$' && c2 == lbrace) || hasDollarBrace (c2 :: rest)

/-- One field of `expandApiConfig`: only strings containing the placeholder
opener are rewritten. -/
def expandField (e : Env) (v : String) : String :=
  if hasDollarBrace v.data then ⟨expandChars e v.data⟩ else v

/-- `expandApiConfig`. -/
def expandApiConfig (e : Env) (c : ApiConfig) : ApiConfig :=
  ⟨expandField e c.baseUrl, expandField e c.modelName,
   expandField e c.apiKey, expandField e c.temperature⟩

/-- `loadConfigWithExpandedApiConfig`. -/
def loadConfigWithExpandedApiConfig (L : Loader) (e : Env) (fuel : Nat) (dir : Dir) :
    Except String AilintConfig :=
  match loadConfig L fuel dir with
  | .error er => .error er
  | .ok c =>
    .ok ⟨c.baseConfig, c.includeExtensions, c.includeMimeTypes, c.ignore,
         c.useGitIgnore, c.apiConfig.map (expandApiConfig e),
         c.apiConfigRuleOverrides⟩

def e9 : Env :=
  ⟨fun _ => none,
   fun n => if n = "MODEL" then some "gpt" else if n = "EMPTY" then some "" else none⟩

/-! ## DirectoryScanner override resolution (directory-scanner.ts) -/

/-- One element of `configsWithPaths`: a resolved config, the directory it
was found in, and its walk distance from the start directory. -/
structure ConfigEntry where
  config : AilintConfig
  configDir : Dir
  depth : Nat
deriving DecidableEq

/-- `collectConfigsWithPaths`: walk from the start directory up to the
filesystem root; every directory with a config contributes, depth counting
every directory step.  `load` abstracts the `access` check plus
`loadConfigWithExpandedApiConfig` of the injected ConfigLoader. -/
def collectConfigsWithPaths (load : Dir → Option AilintConfig) : Dir → Nat → List ConfigEntry
  | [], depth =>
    (match load [] with
     | some c => [⟨c, [], depth⟩]
     | none => [])
  | d :: parent, depth =>
    (match load (d :: parent) with
     | some c => [⟨c, d :: parent, depth⟩]
     | none => []) ++ collectConfigsWithPaths load parent (depth + 1)

/-- `patternMatches`: exact string equality for wildcard-free patterns,
otherwise drop the last character and test it as a prefix. -/
def patternMatches (pattern ruleName : String) : Bool :=
  if '*' ∉ pattern.data then pattern == ruleName
  else pattern.data.dropLast.isPrefixOf ruleName.data

/-- One collected match of `findBestMatchingOverride`. -/
structure MatchRec where
  override : ApiOverride
  baseConfig : Option ApiConfig
  pattern : String
  isExact : Bool
  prefixLength : Nat
  depth : Nat
deriving DecidableEq

/-- The matches one config entry contributes, in override-map order. -/
def matchesOfEntry (ruleName : String) (e : ConfigEntry) : List MatchRec :=
  match e.config.apiConfigRuleOverrides with
  | none => []
  | some ovs =>
    ovs.filterMap (fun po =>
      if patternMatches po.1 ruleName then
        some ⟨po.2, e.config.apiConfig, po.1, decide ('*' ∉ po.1.data),
              (if '*' ∉ po.1.data then ruleName.length else po.1.length - 1),
              e.depth⟩
      else none)

/-- All matches across the collected configs, outermost loop in entry
(depth) order. -/
def matchesForRule (ruleName : String) (entries : List ConfigEntry) : List MatchRec :=
  (entries.map (matchesOfEntry ruleName)).flatten

/-- The comparator passed to `matches.sort`: exact first, then longer
prefix, then smaller depth. -/
def matchCmp (a b : MatchRec) : Ordering :=
  if a.isExact ≠ b.isExact then (if a.isExact = true then .lt else .gt)
  else if a.prefixLength ≠ b.prefixLength then
    (if b.prefixLength < a.prefixLength then .lt else .gt)
  else if a.depth < b.depth then .lt
  else if b.depth < a.depth then .gt
  else .eq

/-- `matches.sort(matchCmp)[0]`: JS `Array.prototype.sort` is stable, so the
head of the sorted array is the earliest minimal element — computed here by
a left fold that replaces the champion only on strict improvement. -/
def pickBest : List MatchRec → Option MatchRec
  | [] => none
  | m :: rest =>
    some (rest.foldl (fun best c => if matchCmp c best = .lt then c else best) m)

/-- `findBestMatchingOverride`. -/
def findBestMatchingOverride (ruleName : String) (entries : List ConfigEntry) :
    Option MatchRec :=
  pickBest (matchesForRule ruleName entries)

def ruleOverrideNoBaseMsg (ruleName : String) : String :=
  "Rule override specified for \"" ++ ruleName ++
  ("\" but no base apiConfig found in configuration")

/-- `resolveApiConfigForFile`, after `dirname`: resolve the API parameters
for a rule relative to a directory. -/
def resolveApiConfigForDir (load : Dir → Option AilintConfig) (dir : Dir)
    (ruleName : String) : Except String (Option ApiConfig) :=
  let entries := collectConfigsWithPaths load dir 0
  if entries = [] then .ok none
  else
    match findBestMatchingOverride ruleName entries with
    | some m =>
      match m.baseConfig with
      | none => .error (ruleOverrideNoBaseMsg ruleName)
      | some base =>
        .ok (some ⟨m.override.baseUrl.getD base.baseUrl,
                   m.override.modelName.getD base.modelName,
                   m.override.apiKey.getD base.apiKey,
                   m.override.temperature.getD base.temperature⟩)
    | none =>
      .ok (match entries.getLast? with
           | some e => e.config.apiConfig
           | none => none)

/-- `resolveApiConfigForFile(filePath, ruleName)`: a file path is its
directory plus a file name, and only the directory is used. -/
def resolveApiConfigForFile (load : Dir → Option AilintConfig)
    (fileDir : Dir) (_fileName ruleName : String) : Except String (Option ApiConfig) :=
  resolveApiConfigForDir load fileDir ruleName

/-- The ranking the spec claims: an exact match beats any wildcard match;
among equally-exact matches a longer prefix beats a shorter; among
equally-ranked matches a smaller walk distance (more nested directory)
wins. -/
def specBetter (a b : MatchRec) : Prop :=
  (a.isExact = true ∧ b.isExact = false)
  ∨ (a.isExact = b.isExact ∧ b.prefixLength < a.prefixLength)
  ∨ (a.isExact = b.isExact ∧ a.prefixLength = b.prefixLength ∧ a.depth < b.depth)

instance (a b : MatchRec) : Decidable (specBetter a b) := by
  unfold specBetter
  infer_instance

def apiA : ApiConfig := ⟨"uA", "mA", "kA", "0.1"⟩

def apiB : ApiConfig := ⟨"uB", "mB", "kB", "0.2"⟩

def ovAuth : ApiOverride := ⟨none, some "m-auth", none, none⟩

def ovTS : ApiOverride := ⟨none, some "m-ts", none, none⟩

def ovT : ApiOverride := ⟨none, some "m-t", none, none⟩

def cfgInner : AilintConfig :=
  ⟨"default", [], [], [], none, some apiA, some [("test_security_auth", ovAuth)]⟩

def cfgOuter : AilintConfig :=
  ⟨"default", [], [], [], none, some apiB,
   some [("test_*", ovT), ("test_security_*", ovTS)]⟩

def loadC1 : Dir → Option AilintConfig := fun d =>
  if d = ["src", "proj"] then some cfgInner
  else if d = ["proj"] then some cfgOuter
  else none

def bestC1 : MatchRec := ⟨ovAuth, some apiA, "test_security_auth", true, 18, 0⟩

def cfgNearA : AilintConfig := ⟨"default", [], [], [], none, some apiA, none⟩

def cfgRootB : AilintConfig := ⟨"default", [], [], [], none, some apiB, none⟩

def loadC2 : Dir → Option AilintConfig := fun d =>
  if d = ["sub"] then some cfgNearA
  else if d = [] then some cfgRootB
  else none

/-! ## Rule-configuration validation (send-rules-to-ai.ts) -/

/-- The insertion-ordered distinct resolved configurations of a rule's
blocks (the JS `Map` keyed by `serializeConfig`; that JSON rendering of the
four fields is injective, so the map is keyed by the config value). -/
def distinctConfigs (resolve : String → String → Option ApiConfig)
    (r : AISpecRule) : List (Option ApiConfig) :=
  r.blocks.foldl (fun acc b =>
    let c := resolve b.filePath r.name
    if c ∈ acc then acc else acc ++ [c]) []

/-- The per-configuration rendering inside the conflict message: only
`baseUrl` and `modelName` are printed. -/
def configDetail : Option ApiConfig → String
  | none => "null (no config)"
  | some c => "\x7bbaseUrl: " ++ (c.baseUrl ++ (", modelName: " ++ (c.modelName ++ "\x7d")))

/-- The error text thrown by `validateRuleConfigurations`. -/
def conflictMsg (ruleName : String) (dcs : List (Option ApiConfig))
    (blockPaths : List String) : String :=
  "Configuration conflict detected for rule \"" ++
  (ruleName ++
   ("\": Blocks within this rule resolve to different API configurations.\nThis is invalid because a rule must be contained within a single AI API request.\nConflicting configurations: " ++
    (joinSep " vs " (dcs.map configDetail) ++
     ("\nBlocks are located in:\n" ++
      (joinSep "\n" (blockPaths.map (fun p => "  - " ++ p)) ++
       ("\nPlease ensure all blocks in rule \"" ++
        (ruleName ++
         "\" use the same API configuration.\nCheck your ailintconfig.json files and apiConfigRuleOverrides settings.")))))))

/-- The per-rule loop of `validateRuleConfigurations`. -/
def validateRulesGo (resolve : String → String → Option ApiConfig) :
    List AISpecRule → Except String Unit
  | [] => .ok ()
  | r :: rest =>
    if 1 < (distinctConfigs resolve r).length then
      .error (conflictMsg r.name (distinctConfigs resolve r)
        (r.blocks.map (fun b => b.filePath)))
    else validateRulesGo resolve rest

/-- `validateRuleConfigurations`: skipped entirely when no directory
scanner was provided. -/
def validateRuleConfigurations
    (scanner : Option (String → String → Option ApiConfig))
    (rules : List AISpecRule) : Except String Unit :=
  match scanner with
  | none => .ok ()
  | some resolve => validateRulesGo resolve rules

/-- Insertion-ordered grouping map update. -/
def addToGroup (gs : List (Option ApiConfig × List AISpecRule))
    (k : Option ApiConfig) (r : AISpecRule) :
    List (Option ApiConfig × List AISpecRule) :=
  if gs.any (fun g => g.1 = k) then
    gs.map (fun g => if g.1 = k then (g.1, g.2 ++ [r]) else g)
  else gs ++ [(k, [r])]

/-- `groupRulesByApiConfig`: resolve via the first block (validation
guarantees uniformity), fall back to the constructor-supplied config. -/
def groupRulesByApiConfig (S : SendRulesToAI) (rules : List AISpecRule) :
    List (Option ApiConfig × List AISpecRule) :=
  rules.foldl (fun gs r =>
    let c0 : Option ApiConfig :=
      match S.directoryScanner, r.blocks with
      | some resolve, b :: _ => resolve b.filePath r.name
      | _, _ => none
    let c : Option ApiConfig :=
      match c0 with
      | none => S.fallbackApiConfig
      | some x => some x
    addToGroup gs c r) []

/-- `parseConfigKey`. -/
def parseConfigKey (S : SendRulesToAI) : Option ApiConfig → Except String ApiConfig
  | none =>
    match S.fallbackApiConfig with
    | some c => .ok c
    | none => .error "No API configuration available"
  | some c => .ok c

/-- The oracle collaborator (`processChunk`'s chat-completion call): one
batch plus one parameter tuple in, one verdict map (or a failure) out. -/
abbrev Oracle := List AISpecRule → ApiConfig → Except String ValidationResult

/-- `Object.assign(results, chunkResults)`. -/
def jsAssign (acc res : ValidationResult) : ValidationResult :=
  acc.filter (fun p => !(res.any (fun q => q.1 = p.1))) ++ res

/-- `validateRules`: configuration validation first, then group, chunk and
submit each chunk to the oracle in order, merging verdicts. -/
def validateRules (S : SendRulesToAI) (oracle : Oracle) (rules : List AISpecRule) :
    Except String ValidationResult := do
  let _ ← validateRuleConfigurations S.directoryScanner rules
  List.foldlM
    (fun acc g => do
      let cfg ← parseConfigKey S g.1
      List.foldlM
        (fun acc2 chunk => do
          let res ← oracle chunk cfg
          pure (jsAssign acc2 res))
        acc (chunkRules S g.2))
    ([] : ValidationResult) (groupRulesByApiConfig S rules)

def apiK1 : ApiConfig := ⟨"u", "m", "KEYA", "0"⟩

def apiK2 : ApiConfig := ⟨"u", "m", "KEYB", "0"⟩

def resolveC3 : String → String → Option ApiConfig := fun p _ =>
  if p = "f1.ts" then some apiK1 else if p = "f2.ts" then some apiK2 else none

def ruleC3 : AISpecRule := ⟨"r", [⟨"s", "x", "f1.ts", 1, 2⟩, ⟨"s", "y", "f2.ts", 3, 4⟩]⟩

def S3 : SendRulesToAI := ⟨150000, fun _ => "", some resolveC3, none⟩

def oracle0 : Oracle := fun _ _ => .ok []

/-! ## Theorems -/

theorem strAppend_data (a b : String) : (a ++ b).data = a.data ++ b.data := rfl

theorem mentions_refl (s : String) : Mentions s s :=
  List.infix_rfl

theorem mentions_append_left (a b sub : String) (h : Mentions a sub) :
    Mentions (a ++ b) sub := by
  unfold Mentions at *
  rw [strAppend_data]
  exact h.trans (List.prefix_append a.data b.data).isInfix

theorem mentions_append_right (a b sub : String) (h : Mentions b sub) :
    Mentions (a ++ b) sub := by
  unfold Mentions at *
  rw [strAppend_data]
  refine h.trans ?_
  exact (List.suffix_append a.data b.data).isInfix

theorem mentions_joinSep (sep : String) (l : List String) (x : String)
    (hx : x ∈ l) : Mentions (joinSep sep l) x := by
  induction l with
  | nil => cases hx
  | cons a rest ih =>
    rcases List.mem_cons.mp hx with h | h
    · subst h
      cases rest with
      | nil => exact mentions_refl x
      | cons b bs =>
        exact mentions_append_left _ _ _ (mentions_append_left _ _ _ (mentions_refl x))
    · cases rest with
      | nil => cases h
      | cons b bs =>
        exact mentions_append_right _ _ _ (ih h)

theorem chunkAux_join (max : Nat) (sz : AISpecRule → Nat) :
    ∀ (rs cur : List AISpecRule) (size : Nat),
      (chunkAux max sz rs cur size).flatten = cur ++ rs := by
  intro rs
  induction rs with
  | nil =>
    intro cur size
    by_cases h : cur = [] <;> simp [chunkAux, h]
  | cons r rest ih =>
    intro cur size
    unfold chunkAux
    by_cases h : max < size + sz r ∧ cur ≠ []
    · simp only [if_pos h, List.flatten_cons]
      rw [ih]
      simp
    · simp only [if_neg h]
      rw [ih]
      simp

theorem chunkAux_ne_nil (max : Nat) (sz : AISpecRule → Nat) :
    ∀ (rs cur : List AISpecRule) (size : Nat),
      ∀ c ∈ chunkAux max sz rs cur size, c ≠ [] := by
  intro rs
  induction rs with
  | nil =>
    intro cur size c hc
    by_cases h : cur = []
    · simp [chunkAux, h] at hc
    · simp [chunkAux, h] at hc
      simpa [hc] using h
  | cons r rest ih =>
    intro cur size c hc
    unfold chunkAux at hc
    by_cases h : max < size + sz r ∧ cur ≠ []
    · simp only [if_pos h] at hc
      rcases List.mem_cons.mp hc with rfl | hmem
      · exact h.2
      · exact ih _ _ _ hmem
    · simp only [if_neg h] at hc
      exact ih _ _ _ hc

theorem chunkAux_sum_le (max : Nat) (sz : AISpecRule → Nat) :
    ∀ (rs cur : List AISpecRule),
      (cur.length ≤ 1 ∨ (cur.map sz).sum ≤ max) →
      ∀ c ∈ chunkAux max sz rs cur ((cur.map sz).sum),
        2 ≤ c.length → (c.map sz).sum ≤ max := by
  intro rs
  induction rs with
  | nil =>
    intro cur hinv c hc hlen
    by_cases h : cur = []
    · simp [chunkAux, h] at hc
    · simp [chunkAux, h] at hc
      subst hc
      rcases hinv with h1 | h1
      · omega
      · exact h1
  | cons r rest ih =>
    intro cur hinv c hc hlen
    unfold chunkAux at hc
    by_cases h : max < (cur.map sz).sum + sz r ∧ cur ≠ []
    · simp only [if_pos h] at hc
      rcases List.mem_cons.mp hc with rfl | hmem
      · rcases hinv with h1 | h1
        · omega
        · exact h1
      · have : ((([r] : List AISpecRule).map sz).sum : Nat) = sz r := by simp
        rw [← this] at hmem
        exact ih [r] (Or.inl (by simp)) c hmem hlen
    · simp only [if_neg h] at hc
      push_neg at h
      have hsum : ((cur ++ [r]).map sz).sum = (cur.map sz).sum + sz r := by simp
      rw [← hsum] at hc
      refine ih (cur ++ [r]) ?_ c hc hlen
      by_cases hcur : cur = []
      · subst hcur; left; simp
      · right
        rw [hsum]
        rcases Nat.lt_or_ge max ((cur.map sz).sum + sz r) with hlt | hle
        · exact absurd (h hlt) hcur
        · exact hle

/-- The first emitted batch begins with the first rule of the current chunk. -/
theorem chunkAux_head (max : Nat) (sz : AISpecRule → Nat) :
    ∀ (rs cur : List AISpecRule) (size : Nat), cur ≠ [] →
      ∃ c₀ cs, chunkAux max sz rs cur size = c₀ :: cs ∧ c₀.head? = cur.head? := by
  intro rs
  induction rs with
  | nil =>
    intro cur size hcur
    exact ⟨cur, [], by simp [chunkAux, hcur], rfl⟩
  | cons r rest ih =>
    intro cur size hcur
    unfold chunkAux
    by_cases h : max < size + sz r ∧ cur ≠ []
    · exact ⟨cur, chunkAux max sz rest [r] (sz r), by simp [if_pos h], rfl⟩
    · simp only [if_neg h]
      obtain ⟨c₀, cs, heq, hhead⟩ := ih (cur ++ [r]) (size + sz r) (by simp)
      refine ⟨c₀, cs, heq, ?_⟩
      rw [hhead]
      cases cur with
      | nil => exact absurd rfl hcur
      | cons a as => simp

theorem chunkAux_chain (max : Nat) (sz : AISpecRule → Nat) :
    ∀ (rs cur : List AISpecRule),
      List.Chain' (fun c c2 => max < (c.map sz).sum + ((c2.map sz).headI))
        (chunkAux max sz rs cur ((cur.map sz).sum)) := by
  intro rs
  induction rs with
  | nil =>
    intro cur
    by_cases h : cur = [] <;> simp [chunkAux, h]
  | cons r rest ih =>
    intro cur
    unfold chunkAux
    by_cases h : max < (cur.map sz).sum + sz r ∧ cur ≠ []
    · simp only [if_pos h]
      have hsz : ((([r] : List AISpecRule).map sz).sum : Nat) = sz r := by simp
      rw [List.chain'_cons']
      constructor
      · intro b hb
        obtain ⟨c₀, cs, heq, hhead⟩ := chunkAux_head max sz rest [r] (sz r) (by simp)
        rw [heq] at hb
        have hbr : b.head? = some r := by
          simp only [List.head?_cons, Option.mem_def, Option.some.injEq] at hb
          rw [← hb]
          simpa using hhead
        have : (b.map sz).headI = sz r := by
          cases b with
          | nil => simp at hbr
          | cons x xs =>
            simp only [List.head?_cons, Option.some.injEq] at hbr
            simp [hbr]
        rw [this]
        exact h.1
      · have := ih [r]
        rw [hsz] at this
        exact this
    · simp only [if_neg h]
      have hsum : (((cur ++ [r]).map sz).sum : Nat) = (cur.map sz).sum + sz r := by simp
      rw [← hsum]
      exact ih (cur ++ [r])

theorem chunkAux_oversized (max : Nat) (sz : AISpecRule → Nat) :
    ∀ (rs cur : List AISpecRule),
      (∀ x ∈ cur, max < sz x → cur = [x]) →
      ∀ c ∈ chunkAux max sz rs cur ((cur.map sz).sum),
        ∀ x ∈ c, max < sz x → c = [x] := by
  intro rs
  induction rs with
  | nil =>
    intro cur hinv c hc
    by_cases h : cur = []
    · simp [chunkAux, h] at hc
    · simp [chunkAux, h] at hc
      subst hc
      exact hinv
  | cons r rest ih =>
    intro cur hinv c hc
    unfold chunkAux at hc
    by_cases h : max < (cur.map sz).sum + sz r ∧ cur ≠ []
    · simp only [if_pos h] at hc
      rcases List.mem_cons.mp hc with rfl | hmem
      · exact hinv
      · have hsz : ((([r] : List AISpecRule).map sz).sum : Nat) = sz r := by simp
        rw [← hsz] at hmem
        refine ih [r] ?_ c hmem
        intro x hx _
        simp only [List.mem_singleton] at hx
        subst hx; rfl
    · simp only [if_neg h] at hc
      push_neg at h
      have hsum : (((cur ++ [r]).map sz).sum : Nat) = (cur.map sz).sum + sz r := by simp
      rw [← hsum] at hc
      refine ih (cur ++ [r]) ?_ c hc
      intro x hx hover
      rcases List.mem_append.mp hx with hx1 | hx1
      · have hcx := hinv x hx1 hover
        exfalso
        have hsumx : ((cur.map sz).sum : Nat) = sz x := by rw [hcx]; simp
        have hlt : max < (cur.map sz).sum + sz r := by omega
        have hnil := h hlt
        rw [hcx] at hnil
        simp at hnil
      · simp only [List.mem_singleton] at hx1
        subst hx1
        by_cases hcur : cur = []
        · subst hcur; simp
        · exfalso
          have hlt : max < (cur.map sz).sum + sz x := by omega
          exact hcur (h hlt)

theorem headSize_eq (S : SendRulesToAI) (c : List AISpecRule) :
    headSize S c = (c.map (ruleSize S)).headI := by
  cases c <;> rfl

theorem strAppend_assoc (a b c : String) : a ++ b ++ c = a ++ (b ++ c) := by
  apply String.ext
  simp only [strAppend_data]
  exact List.append_assoc _ _ _

theorem strAppend_empty (s : String) : s ++ "" = s := by
  apply String.ext
  simp [strAppend_data]

theorem parseLoop_append (fp : String) (xs ys : List String) :
    ∀ (i : Nat) (st : ParserState),
      parseLoop fp (xs ++ ys) i st = parseLoop fp ys (i + xs.length) (parseLoop fp xs i st) := by
  induction xs with
  | nil => intro i st; simp [parseLoop]
  | cons x rest ih =>
    intro i st
    simp only [List.cons_append, parseLoop, List.append_eq]
    rw [ih]
    have hidx : i + 1 + rest.length = i + (x :: rest).length := by
      rw [List.length_cons]; omega
    rw [hidx]

theorem collectSource_nil : collectSource [] = "" := rfl

theorem collectSource_cons_empty (rest : List String) :
    collectSource ("" :: rest) = collectSource rest := by
  simp [collectSource]

theorem collectSource_cons (l : String) (rest : List String) (h : l ≠ "") :
    collectSource (l :: rest) = l ++ "\n" ++ collectSource rest := by
  simp only [collectSource, List.filter_cons]
  rw [if_pos (by simpa using h)]
  rw [List.map_cons]
  rfl

theorem parseLoop_body (fp : String) (body : List String)
    (hbody : ∀ l ∈ body, findBeginMatch l.data = none ∧ findEndMatch l.data = none) :
    ∀ (i : Nat) (rs : List AISpecRule) (ns : List String) (b : AISpecBlock),
      parseLoop fp body i ⟨rs, some ns, some b⟩ =
        ⟨rs, some ns, some ⟨b.specification, b.source ++ collectSource body,
                            b.filePath, b.startLine, b.endLine⟩⟩ := by
  induction body with
  | nil =>
    intro i rs ns b
    simp [parseLoop, collectSource_nil, strAppend_empty]
  | cons l rest ih =>
    intro i rs ns b
    have hl := hbody l (List.mem_cons_self l rest)
    have hrest : ∀ x ∈ rest, findBeginMatch x.data = none ∧ findEndMatch x.data = none :=
      fun x hx => hbody x (List.mem_cons_of_mem l hx)
    by_cases hemp : l = ""
    · subst hemp
      have hstep : parseStep fp i ⟨rs, some ns, some b⟩ "" = ⟨rs, some ns, some b⟩ := by
        simp [parseStep]
      simp only [parseLoop]
      rw [hstep, ih hrest, collectSource_cons_empty]
    · have hstep : parseStep fp i ⟨rs, some ns, some b⟩ l =
          ⟨rs, some ns, some ⟨b.specification, b.source ++ l ++ "\n",
                              b.filePath, b.startLine, b.endLine⟩⟩ := by
        simp [parseStep, hemp, hl.1, hl.2]
      simp only [parseLoop]
      rw [hstep, ih hrest, collectSource_cons l rest hemp]
      simp only [strAppend_assoc]

theorem rulesInsert_mem (ns : List String) :
    ∀ (rs : List AISpecRule), ∀ r ∈ ns.foldl rulesInsert rs,
      r ∈ rs ∨ (r.blocks = [] ∧ r.name ∈ ns) := by
  induction ns with
  | nil => intro rs r hr; exact Or.inl hr
  | cons n rest ih =>
    intro rs r hr
    simp only [List.foldl_cons] at hr
    rcases ih (rulesInsert rs n) r hr with h | h
    · unfold rulesInsert at h
      by_cases hc : rs.any (fun r => r.name = n)
      · rw [if_pos hc] at h
        exact Or.inl h
      · rw [if_neg hc] at h
        rcases List.mem_append.mp h with h1 | h1
        · exact Or.inl h1
        · simp only [List.mem_singleton] at h1
          subst h1
          exact Or.inr ⟨rfl, List.mem_cons_self n rest⟩
    · exact Or.inr ⟨h.1, List.mem_cons_of_mem n h.2⟩

theorem hasEntry_insertAll (ns : List String) :
    ∀ (rs : List AISpecRule) (n : String),
      hasEntry (ns.foldl rulesInsert rs) n ↔ hasEntry rs n ∨ n ∈ ns := by
  induction ns with
  | nil => intro rs n; simp [hasEntry]
  | cons m rest ih =>
    intro rs n
    simp only [List.foldl_cons]
    rw [ih]
    have hstep : hasEntry (rulesInsert rs m) n ↔ hasEntry rs n ∨ n = m := by
      unfold rulesInsert
      by_cases hc : rs.any (fun r => r.name = m)
      · rw [if_pos hc]
        constructor
        · exact fun h => Or.inl h
        · rintro (h | rfl)
          · exact h
          · simp only [List.any_eq_true, decide_eq_true_eq] at hc
            obtain ⟨r, hr, hname⟩ := hc
            exact ⟨r, hr, hname⟩
      · rw [if_neg hc]
        unfold hasEntry
        constructor
        · rintro ⟨r, hr, hname⟩
          rcases List.mem_append.mp hr with h1 | h1
          · exact Or.inl ⟨r, h1, hname⟩
          · simp only [List.mem_singleton] at h1
            subst h1
            exact Or.inr hname.symm
        · rintro (⟨r, hr, hname⟩ | rfl)
          · exact ⟨r, List.mem_append_left _ hr, hname⟩
          · exact ⟨⟨n, []⟩, List.mem_append_right _ (List.mem_singleton_self _), rfl⟩
    rw [hstep]
    simp only [List.mem_cons]
    tauto

/-- Full characterization of `parseFile` on a text consisting of one
begin marker, a body of marker-free lines, and one end marker. -/
theorem parse_pair (fp beginLine endLine : String) (body : List String)
    (namesRaw spec endRaw : List Char)
    (hb : findBeginMatch beginLine.data = some (namesRaw, spec))
    (heb : findBeginMatch endLine.data = none)
    (he : findEndMatch endLine.data = some endRaw)
    (hbody : ∀ l ∈ body, findBeginMatch l.data = none ∧ findEndMatch l.data = none) :
    parseFileLines fp (beginLine :: (body ++ [endLine])) =
      if splitTrimNames namesRaw = splitTrimNames endRaw then
        ((splitTrimNames namesRaw).foldl
          (rulesPush ⟨jsTrim ⟨spec⟩, jsTrim (collectSource body), fp, 1,
                      body.length + 2⟩)
          ((splitTrimNames namesRaw).foldl rulesInsert [])).filter
          (fun r => !r.blocks.isEmpty)
      else [] := by
  have hbne : beginLine ≠ "" := by
    intro h
    rw [h] at hb
    have hnone : findBeginMatch "".data = none := rfl
    rw [hnone] at hb
    cases hb
  have hene : endLine ≠ "" := by
    intro h
    rw [h] at he
    have hnone : findEndMatch "".data = none := rfl
    rw [hnone] at he
    cases he
  unfold parseFileLines
  simp only [parseLoop]
  have hstep0 : parseStep fp 0 ⟨[], none, none⟩ beginLine =
      ⟨(splitTrimNames namesRaw).foldl rulesInsert [], some (splitTrimNames namesRaw),
       some ⟨jsTrim ⟨spec⟩, "", fp, 1, 0⟩⟩ := by
    simp [parseStep, hbne, hb]
  rw [hstep0, parseLoop_append, parseLoop_body fp body hbody]
  simp only [parseLoop]
  have hsrc : ("" : String) ++ collectSource body = collectSource body := rfl
  have hstepEnd : parseStep fp (1 + body.length)
      ⟨(splitTrimNames namesRaw).foldl rulesInsert [], some (splitTrimNames namesRaw),
       some ⟨jsTrim ⟨spec⟩, collectSource body, fp, 1, 0⟩⟩ endLine =
      if splitTrimNames namesRaw = splitTrimNames endRaw then
        ⟨(splitTrimNames namesRaw).foldl
          (rulesPush ⟨jsTrim ⟨spec⟩, jsTrim (collectSource body), fp, 1,
                      body.length + 2⟩)
          ((splitTrimNames namesRaw).foldl rulesInsert []), none, none⟩
      else ⟨(splitTrimNames namesRaw).foldl rulesInsert [], none, none⟩ := by
    have h21 : 1 + body.length + 1 = body.length + 2 := by omega
    by_cases hm : splitTrimNames namesRaw = splitTrimNames endRaw
    · simp [parseStep, hene, heb, he, hm, h21]
    · simp [parseStep, hene, heb, he, hm]
  rw [hsrc, hstepEnd]
  by_cases hm : splitTrimNames namesRaw = splitTrimNames endRaw
  · rw [if_pos hm, if_pos hm]
  · rw [if_neg hm, if_neg hm]
    rw [List.filter_eq_nil_iff]
    intro r hr
    rcases rulesInsert_mem _ [] r hr with h | h
    · cases h
    · simp [h.1]

theorem pushAll_eq (b : AISpecBlock) (ms : List String) :
    ∀ (rs : List AISpecRule),
      ms.foldl (rulesPush b) rs =
        rs.map (fun r => ⟨r.name, r.blocks ++ List.replicate (ms.count r.name) b⟩) := by
  induction ms with
  | nil =>
    intro rs
    simp only [List.foldl_nil, List.count_nil, List.replicate_zero, List.append_nil]
    exact (List.map_id rs).symm
  | cons m rest ih =>
    intro rs
    simp only [List.foldl_cons]
    rw [ih]
    unfold rulesPush
    rw [List.map_map]
    apply List.map_congr_left
    intro r _
    simp only [Function.comp_apply]
    by_cases hn : r.name = m
    · rw [if_pos hn]
      simp only [List.count_cons]
      rw [if_pos (by simp [hn])]
      simp [List.replicate_succ, List.append_assoc]
    · rw [if_neg hn]
      simp only [List.count_cons]
      rw [if_neg (by simp only [beq_iff_eq]; exact fun h => hn h.symm)]
      simp

/-- In the matched case, every fragment of every returned rule is the one
shared fragment value. -/
theorem parse_pair_blocks (fp beginLine endLine : String) (body : List String)
    (namesRaw spec endRaw : List Char)
    (hb : findBeginMatch beginLine.data = some (namesRaw, spec))
    (heb : findBeginMatch endLine.data = none)
    (he : findEndMatch endLine.data = some endRaw)
    (hbody : ∀ l ∈ body, findBeginMatch l.data = none ∧ findEndMatch l.data = none)
    (hm : splitTrimNames namesRaw = splitTrimNames endRaw) :
    ∀ r ∈ parseFileLines fp (beginLine :: (body ++ [endLine])), ∀ x ∈ r.blocks,
      x = ⟨jsTrim ⟨spec⟩, jsTrim (collectSource body), fp, 1, body.length + 2⟩ := by
  intro r hr x hx
  rw [parse_pair fp beginLine endLine body namesRaw spec endRaw hb heb he hbody,
    if_pos hm] at hr
  rw [pushAll_eq] at hr
  obtain ⟨hmem, _⟩ := List.mem_filter.mp hr
  obtain ⟨r0, hr0, hF⟩ := List.mem_map.mp hmem
  have hblocks : r0.blocks = [] := by
    rcases rulesInsert_mem _ [] r0 hr0 with h | h
    · cases h
    · exact h.1
  rw [← hF] at hx
  simp only [hblocks, List.nil_append] at hx
  exact List.eq_of_mem_replicate hx

/-- In the matched case, a rule carrying the shared fragment exists exactly
for the names of the begin marker's trimmed name list. -/
theorem parse_pair_exists (fp beginLine endLine : String) (body : List String)
    (namesRaw spec endRaw : List Char)
    (hb : findBeginMatch beginLine.data = some (namesRaw, spec))
    (heb : findBeginMatch endLine.data = none)
    (he : findEndMatch endLine.data = some endRaw)
    (hbody : ∀ l ∈ body, findBeginMatch l.data = none ∧ findEndMatch l.data = none)
    (hm : splitTrimNames namesRaw = splitTrimNames endRaw) :
    ∀ n, (∃ r ∈ parseFileLines fp (beginLine :: (body ++ [endLine])),
            r.name = n ∧
            (⟨jsTrim ⟨spec⟩, jsTrim (collectSource body), fp, 1,
              body.length + 2⟩ : AISpecBlock) ∈ r.blocks)
         ↔ n ∈ splitTrimNames namesRaw := by
  intro n
  rw [parse_pair fp beginLine endLine body namesRaw spec endRaw hb heb he hbody,
    if_pos hm, pushAll_eq]
  constructor
  · rintro ⟨r, hr, hname, -⟩
    obtain ⟨hmem, _⟩ := List.mem_filter.mp hr
    obtain ⟨r0, hr0, hF⟩ := List.mem_map.mp hmem
    rcases rulesInsert_mem _ [] r0 hr0 with h | h
    · cases h
    · rw [← hname, ← hF]
      exact h.2
  · intro hn
    have hent : hasEntry ((splitTrimNames namesRaw).foldl rulesInsert []) n := by
      rw [hasEntry_insertAll]
      exact Or.inr hn
    obtain ⟨r0, hr0, hname⟩ := hent
    have hblocks : r0.blocks = [] := by
      rcases rulesInsert_mem _ [] r0 hr0 with h | h
      · cases h
      · exact h.1
    have hcount : (splitTrimNames namesRaw).count n ≠ 0 := by
      rw [Ne, List.count_eq_zero]
      exact fun h => h hn
    refine ⟨⟨r0.name, r0.blocks ++ List.replicate
      ((splitTrimNames namesRaw).count r0.name)
      ⟨jsTrim ⟨spec⟩, jsTrim (collectSource body), fp, 1, body.length + 2⟩⟩, ?_, hname, ?_⟩
    · apply List.mem_filter.mpr
      refine ⟨List.mem_map_of_mem _ hr0, ?_⟩
      have hne : r0.blocks ++ List.replicate ((splitTrimNames namesRaw).count r0.name)
          (⟨jsTrim ⟨spec⟩, jsTrim (collectSource body), fp, 1,
            body.length + 2⟩ : AISpecBlock) ≠ [] := by
        rw [hblocks, hname, List.nil_append]
        intro hnil
        have hlen := congrArg List.length hnil
        simp only [List.length_replicate, List.length_nil] at hlen
        exact hcount hlen
      simpa [List.isEmpty_iff] using hne
    · simp only [hblocks, hname, List.nil_append]
      exact List.mem_replicate.mpr ⟨hcount, rfl⟩

/-- Claim C5: for a begin/end marker pair, `parseFile` produces a fragment
if and only if the comma-split, whitespace-trimmed rule-name lists of the
two markers are equal in length, order and exact string value; in the
mismatched case (e.g. BEGIN(a,b)...END(b,a)) no rule at all is produced,
and in the matched case the identical fragment value is appended to every
named rule. -/
theorem claim_C5 (fp beginLine endLine : String) (body : List String)
    (namesRaw spec endRaw : List Char)
    (hb : findBeginMatch beginLine.data = some (namesRaw, spec))
    (heb : findBeginMatch endLine.data = none)
    (he : findEndMatch endLine.data = some endRaw)
    (hbody : ∀ l ∈ body, findBeginMatch l.data = none ∧ findEndMatch l.data = none) :
    (splitTrimNames namesRaw ≠ splitTrimNames endRaw →
      parseFileLines fp (beginLine :: (body ++ [endLine])) = [])
    ∧ (splitTrimNames namesRaw = splitTrimNames endRaw →
      (∀ n, (∃ r ∈ parseFileLines fp (beginLine :: (body ++ [endLine])),
               r.name = n ∧
               (⟨jsTrim ⟨spec⟩, jsTrim (collectSource body), fp, 1,
                 body.length + 2⟩ : AISpecBlock) ∈ r.blocks)
            ↔ n ∈ splitTrimNames namesRaw)
      ∧ (∀ r ∈ parseFileLines fp (beginLine :: (body ++ [endLine])),
           ∀ x ∈ r.blocks,
             x = ⟨jsTrim ⟨spec⟩, jsTrim (collectSource body), fp, 1,
                  body.length + 2⟩)) := by
  constructor
  · intro hne
    rw [parse_pair fp beginLine endLine body namesRaw spec endRaw hb heb he hbody,
      if_neg hne]
  · intro hm
    exact ⟨parse_pair_exists fp beginLine endLine body namesRaw spec endRaw
             hb heb he hbody hm,
           parse_pair_blocks fp beginLine endLine body namesRaw spec endRaw
             hb heb he hbody hm⟩

/-- Witness for C5 at a concrete input: BEGIN(a, b) closed by END(b,a) —
name order differs, so no rule is extracted at all. -/
theorem claim_C5_witness :
    parseFileLines "w.ts"
      ("// AI_SPEC_BEGIN(a, b): \"s\"" :: (["x = 1;"] ++ ["// AI_SPEC_END(b,a)"])) = [] :=
  (claim_C5 "w.ts" "// AI_SPEC_BEGIN(a, b): \"s\"" "// AI_SPEC_END(b,a)" ["x = 1;"]
    "a, b".data "s".data "b,a".data (by decide) (by decide) (by decide)
    (by decide)).1 (by decide)

/-- Counterexample for C6: on a block whose interior contains an empty
line, the parser DROPS that line from the recorded source text
(`if (!line) continue`), so the source is "a\nb", not the
interior-blank-preserving "a\n\nb" the claim predicts. -/
theorem claim_C6_counterexample :
    parseFileLines "w.ts"
      ["// AI_SPEC_BEGIN(r): \"s\"", "a", "", "b", "// AI_SPEC_END(r)"] =
      [⟨"r", [⟨"s", "a\nb", "w.ts", 1, 5⟩]⟩]
    ∧ ("a\nb" : String) ≠ "a\n\nb" := by
  constructor
  · decide
  · decide

/-- Claim C6 (amended): for every fragment extracted from a matched pair,
the specification is the quoted text trimmed of surrounding whitespace, and
the source is the concatenation of the NON-EMPTY lines strictly between the
markers, each followed by a newline, trimmed of surrounding whitespace;
empty interior lines are dropped (whitespace-only interior lines are kept). -/
theorem claim_C6_amended (fp beginLine endLine : String) (body : List String)
    (namesRaw spec endRaw : List Char)
    (hb : findBeginMatch beginLine.data = some (namesRaw, spec))
    (heb : findBeginMatch endLine.data = none)
    (he : findEndMatch endLine.data = some endRaw)
    (hbody : ∀ l ∈ body, findBeginMatch l.data = none ∧ findEndMatch l.data = none)
    (hm : splitTrimNames namesRaw = splitTrimNames endRaw) :
    ∀ r ∈ parseFileLines fp (beginLine :: (body ++ [endLine])), ∀ x ∈ r.blocks,
      x.specification = jsTrim ⟨spec⟩ ∧ x.source = jsTrim (collectSource body) := by
  intro r hr x hx
  have := parse_pair_blocks fp beginLine endLine body namesRaw spec endRaw
    hb heb he hbody hm r hr x hx
  rw [this]
  exact ⟨rfl, rfl⟩

/-- Witness for the amended C6 at a concrete input with an interior empty
line and surrounding whitespace in the quoted specification. -/
theorem claim_C6_amended_witness :
    ("s" : String) = jsTrim ⟨" s ".data⟩
    ∧ ("a\nb" : String) = jsTrim (collectSource ["a", "", "b"]) := by
  have T := claim_C6_amended "w6.ts" "// AI_SPEC_BEGIN(r): \" s \"" "// AI_SPEC_END(r)"
    ["a", "", "b"] "r".data " s ".data "r".data (by decide) (by decide) (by decide)
    (by decide) (by decide)
  have hr := T ⟨"r", [⟨"s", "a\nb", "w6.ts", 1, 5⟩]⟩ (by decide)
    ⟨"s", "a\nb", "w6.ts", 1, 5⟩ (by decide)
  exact ⟨hr.1, hr.2⟩

/-- Claim C10: the batches returned by `chunkRules` form an order-preserving
partition of the input — concatenating them yields exactly the input list,
and no batch is empty. -/
theorem claim_C10 (S : SendRulesToAI) (rules : List AISpecRule) :
    (chunkRules S rules).flatten = rules ∧ ∀ c ∈ chunkRules S rules, c ≠ [] := by
  constructor
  · have h := chunkAux_join S.maxChunkSize (ruleSize S) rules [] 0
    simpa [chunkRules] using h
  · intro c hc
    exact chunkAux_ne_nil S.maxChunkSize (ruleSize S) rules [] 0 c hc

/-- Witness for C10 at a concrete input. -/
theorem claim_C10_witness :
    (chunkRules sampleS [rA, rB]).flatten = [rA, rB] :=
  (claim_C10 sampleS [rA, rB]).1

/-- Claim C4: `chunkRules` processes rules in order, sizes each rule by the
one-rule rendering of the wire serializer (`fmtXML`, the source's
`formatRulesToXML`), and starts a new batch exactly when adding the next
rule would exceed the ceiling and the current batch is non-empty: every
multi-rule batch fits the ceiling, each batch boundary is forced (the batch
before it plus the head of the batch after it would exceed the ceiling),
two individually fitting rules whose sizes sum above the ceiling go to
separate batches in order, and a single oversized rule sits alone in its
own batch rather than being rejected or split. -/
theorem claim_C4 (S : SendRulesToAI) (rules : List AISpecRule) (a b : AISpecRule) :
    (ruleSize S a = (S.fmtXML [a]).length)
    ∧ (ruleSize S a < S.maxChunkSize → ruleSize S b < S.maxChunkSize →
        S.maxChunkSize < ruleSize S a + ruleSize S b →
        chunkRules S [a, b] = [[a], [b]])
    ∧ (∀ c ∈ chunkRules S rules, 2 ≤ c.length → sumSize S c ≤ S.maxChunkSize)
    ∧ List.Chain' (fun c c2 => S.maxChunkSize < sumSize S c + headSize S c2)
        (chunkRules S rules)
    ∧ (∀ c ∈ chunkRules S rules, ∀ r ∈ c, S.maxChunkSize < ruleSize S r → c = [r]) := by
  refine ⟨rfl, ?_, ?_, ?_, ?_⟩
  · intro ha hb hsum
    show chunkAux S.maxChunkSize (ruleSize S) [a, b] [] 0 = [[a], [b]]
    have h1 : ¬ (S.maxChunkSize < 0 + ruleSize S a ∧ ([] : List AISpecRule) ≠ []) := by
      simp
    have h2 : S.maxChunkSize < 0 + ruleSize S a + ruleSize S b ∧
        ([a] : List AISpecRule) ≠ [] := ⟨by omega, by simp⟩
    rw [chunkAux, if_neg h1, List.nil_append, chunkAux, if_pos h2, chunkAux]
    simp
  · intro c hc hlen
    have h0 : ((0 : Nat)) = (([] : List AISpecRule).map (ruleSize S)).sum := by simp
    have := chunkAux_sum_le S.maxChunkSize (ruleSize S) rules [] (by simp)
    rw [← h0] at this
    exact this c hc hlen
  · have h0 : ((0 : Nat)) = (([] : List AISpecRule).map (ruleSize S)).sum := by simp
    have hch := chunkAux_chain S.maxChunkSize (ruleSize S) rules []
    rw [← h0] at hch
    refine List.Chain'.imp ?_ hch
    intro c c2 h
    rw [sumSize, headSize_eq]
    exact h
  · intro c hc r hr hover
    have h0 : ((0 : Nat)) = (([] : List AISpecRule).map (ruleSize S)).sum := by simp
    have := chunkAux_oversized S.maxChunkSize (ruleSize S) rules [] (by simp)
    rw [← h0] at this
    exact this c hc r hr hover

/-- Witness for C4 at a concrete input: two 3-character rules against a
ceiling of 5 land in separate singleton batches. -/
theorem claim_C4_witness :
    chunkRules sampleS [rA, rB] = [[rA], [rB]] :=
  (claim_C4 sampleS [rA, rB] rA rB).2.1 (by decide) (by decide) (by decide)

theorem strNe_data {p : String} (h : p ≠ "") : p.data ≠ [] := by
  intro hd
  exact h (String.ext hd)

theorem validShape_of_starPattern (pre : String) (hne : pre ≠ "") (hnst : '*' ∉ pre.data) :
    (pre ++ "*").data.count '*' = 1 ∧ (pre ++ "*").data.getLast? = some '*' ∧
      1 < (pre ++ "*").data.length := by
  have hdata : (pre ++ "*").data = pre.data ++ ['*'] := rfl
  refine ⟨?_, ?_, ?_⟩
  · rw [hdata, List.count_append, List.count_eq_zero.mpr hnst]
    simp
  · rw [hdata]
    exact List.getLast?_concat _
  · rw [hdata, List.length_append]
    have hpos : 0 < pre.data.length := List.length_pos.mpr (strNe_data hne)
    simp only [List.length_singleton]
    omega

theorem prefix_of_validShape (p : String)
    (hc : p.data.count '*' = 1) (hl : p.data.getLast? = some '*')
    (hlen : 1 < p.data.length) :
    ∃ pre : String, pre ≠ "" ∧ '*' ∉ pre.data ∧ p = pre ++ "*" := by
  have hne : p.data ≠ [] := by
    intro h
    rw [h] at hl
    cases hl
  have hgl : p.data.getLast hne = '*' := by
    have hq := List.getLast?_eq_getLast p.data hne
    rw [hq] at hl
    exact Option.some.inj hl
  have hsplit : p.data.dropLast ++ ['*'] = p.data := by
    rw [← hgl]
    exact List.dropLast_append_getLast hne
  refine ⟨⟨p.data.dropLast⟩, ?_, ?_, ?_⟩
  · intro hcon
    have hd : p.data.dropLast = [] := congrArg String.data hcon
    have hld := List.length_dropLast p.data
    rw [hd] at hld
    simp only [List.length_nil] at hld
    omega
  · have hc2 : (p.data.dropLast ++ ['*']).count '*' = 1 := by rw [hsplit]; exact hc
    rw [List.count_append] at hc2
    have hone : (['*'] : List Char).count '*' = 1 := by decide
    rw [hone] at hc2
    rw [← List.count_eq_zero]
    show p.data.dropLast.count '*' = 0
    omega
  · apply String.ext
    rw [strAppend_data]
    exact hsplit.symm

theorem validateGo_error (configPath : String) :
    ∀ (keys seen : List String), keys.Nodup → (∀ k ∈ keys, k ∉ seen) →
      (∃ p ∈ keys, isValidRulePattern p = false) →
      ∃ q, q ∈ keys ∧ isValidRulePattern q = false ∧
        validateRulePatternsGo configPath keys seen =
          .error (invalidPatternMsg q configPath) := by
  intro keys
  induction keys with
  | nil =>
    intro seen _ _ hex
    simp at hex
  | cons p rest ih =>
    intro seen hnd hfresh hex
    have hnotseen : p ∉ seen := hfresh p (List.mem_cons_self p rest)
    by_cases hv : isValidRulePattern p
    · have hex2 : ∃ q ∈ rest, isValidRulePattern q = false := by
        rcases hex with ⟨q, hq, hqv⟩
        rcases List.mem_cons.mp hq with rfl | hq2
        · rw [hv] at hqv
          cases hqv
        · exact ⟨q, hq2, hqv⟩
      have hnd2 := (List.nodup_cons.mp hnd).2
      have hfresh2 : ∀ k ∈ rest, k ∉ p :: seen := by
        intro k hk
        rw [List.mem_cons]
        push_neg
        constructor
        · intro hkp
          subst hkp
          exact (List.nodup_cons.mp hnd).1 hk
        · exact hfresh k (List.mem_cons_of_mem p hk)
      obtain ⟨q, hq, hqv, hrun⟩ := ih (p :: seen) hnd2 hfresh2 hex2
      refine ⟨q, List.mem_cons_of_mem p hq, hqv, ?_⟩
      unfold validateRulePatternsGo
      rw [if_neg hnotseen, if_pos hv]
      exact hrun
    · refine ⟨p, List.mem_cons_self p rest, by simpa using hv, ?_⟩
      unfold validateRulePatternsGo
      rw [if_neg hnotseen, if_neg hv]

theorem validateGo_ok (configPath : String) :
    ∀ (keys seen : List String), (∀ p ∈ keys, isValidRulePattern p = true) →
      keys.Nodup → (∀ k ∈ keys, k ∉ seen) →
      validateRulePatternsGo configPath keys seen = .ok () := by
  intro keys
  induction keys with
  | nil => intro seen _ _ _; rfl
  | cons p rest ih =>
    intro seen hall hnd hfresh
    unfold validateRulePatternsGo
    rw [if_neg (hfresh p (List.mem_cons_self p rest)),
      if_pos (hall p (List.mem_cons_self p rest))]
    refine ih (p :: seen) (fun q hq => hall q (List.mem_cons_of_mem p hq))
      (List.nodup_cons.mp hnd).2 ?_
    intro k hk
    rw [List.mem_cons]
    push_neg
    exact ⟨fun hkp => (List.nodup_cons.mp hnd).1 (hkp ▸ hk),
           hfresh k (List.mem_cons_of_mem p hk)⟩

theorem mentions_trans (a b c : String) (h1 : Mentions a b) (h2 : Mentions b c) :
    Mentions a c :=
  h2.trans h1

theorem walkParents_none (L : Loader) (fuel : Nat) :
    ∀ cur : Dir, (∀ d : Dir, d <:+ cur → L.fs d = none) →
      walkParents L fuel cur = .ok none := by
  intro cur
  induction cur with
  | nil =>
    intro h
    have h0 : L.fs [] = none := h [] (List.suffix_refl [])
    simp [walkParents, tryLoadAt, h0]
  | cons x parent ih =>
    intro h
    have h0 : L.fs (x :: parent) = none := h _ (List.suffix_refl _)
    have h2 : ∀ d, d <:+ parent → L.fs d = none := fun d hd =>
      h d (hd.trans (List.suffix_cons x parent))
    simp [walkParents, tryLoadAt, h0, ih h2]

theorem isValid_false_iff (p : String) :
    isValidRulePattern p = false ↔ specBadPattern p := by
  unfold isValidRulePattern specBadPattern
  by_cases h0 : p.data.count '*' = 0
  · rw [if_pos h0]
    have hnm : '*' ∉ p.data := by rwa [← List.count_eq_zero]
    simp [hnm]
  · rw [if_neg h0]
    have hmem : '*' ∈ p.data := by
      by_contra hc
      exact h0 (List.count_eq_zero.mpr hc)
    by_cases h1 : p.data.count '*' = 1 ∧ p.data.getLast? = some '*' ∧ 1 < p.data.length
    · rw [if_pos h1]
      constructor
      · intro h
        cases h
      · rintro ⟨_, hno⟩
        exfalso
        exact hno (prefix_of_validShape p h1.1 h1.2.1 h1.2.2)
    · rw [if_neg h1]
      constructor
      · intro _
        refine ⟨hmem, ?_⟩
        rintro ⟨pre, hne, hnst, rfl⟩
        exact h1 (validShape_of_starPattern pre hne hnst)
      · intro _
        rfl

/-- Claim C7: a config whose base-mode is inherit-from-parent (omitted or
"parent"), in a directory none of whose ancestors has a config, makes
`loadConfig` fail with a hard configuration error naming the directory that
started the walk — no silent fallback to a default. -/
theorem claim_C7 (L : Loader) (fuel : Nat) (dir : Dir) (rc : RawConfig)
    (hfs : L.fs dir = some rc)
    (hmode : rc.baseConfig = none ∨ rc.baseConfig = some "parent")
    (hpat : validateOverridesOf rc (configPathStr dir) = .ok ())
    (hanc : ∀ d : Dir, d ≠ dir → d <:+ dir → L.fs d = none)
    (hdir : dir ≠ []) (hfuel : 1 ≤ fuel) :
    loadConfig L fuel dir =
      .error (failLoadMsg (configPathStr dir) (noParentMsg (dirStr dir)))
    ∧ Mentions (failLoadMsg (configPathStr dir) (noParentMsg (dirStr dir)))
        (dirStr dir) := by
  have hbm : effectiveBaseMode rc = "parent" := by
    rcases hmode with h | h <;> simp [effectiveBaseMode, h]
  obtain ⟨f, rfl⟩ : ∃ f, fuel = f + 1 := ⟨fuel - 1, by omega⟩
  obtain ⟨x, t, rfl⟩ : ∃ x t, dir = x :: t := by
    cases dir with
    | nil => exact absurd rfl hdir
    | cons x t => exact ⟨x, t, rfl⟩
  have hwalk : walkParents L f t = .ok none := by
    apply walkParents_none
    intro d hd
    apply hanc d
    · intro heq
      subst heq
      have hlen := hd.length_le
      simp at hlen
    · exact hd.trans (List.suffix_cons x t)
  have hmerge : mergeWithBase L (f + 1) rc (x :: t) =
      .error (noParentMsg (dirStr (x :: t))) := by
    rw [mergeWithBase]
    rw [if_neg (by rw [hbm]; decide), if_pos hbm]
    rw [findParentConfig]
    simp only [parentDir]
    rw [hwalk]
  constructor
  · rw [loadConfig, hfs]
    simp only
    rw [if_neg (by rw [hbm]; decide), hpat, hmerge]
  · apply mentions_append_right
    apply mentions_append_right
    apply mentions_append_left
    apply mentions_append_right
    exact mentions_refl _

/-- Witness for C7 at a concrete input: a lone config with no `baseConfig`
field in `/proj` and no config anywhere above it. -/
theorem claim_C7_witness :
    loadConfig loaderC7 1 ["proj"] =
      .error (failLoadMsg (configPathStr ["proj"]) (noParentMsg (dirStr ["proj"]))) := by
  refine (claim_C7 loaderC7 1 ["proj"] rcParentOnly rfl (Or.inl rfl) rfl ?_
    (by decide) (by decide)).1
  intro d hne hsuf
  rcases List.suffix_cons_iff.mp hsuf with h1 | h1
  · exact absurd h1 hne
  · have hd : d = [] := List.suffix_nil.mp h1
    subst hd
    rfl

/-- Claim C8: an override key is rejected at load time exactly when it
contains a wildcard and is not a non-empty literal prefix followed by one
trailing asterisk; in particular "*", "**" and "prefix_*_suffix" are
rejected while wildcard-free keys and "a*" are accepted, and `loadConfig`
surfaces a configuration error naming the offending pattern and the config
file path. -/
theorem claim_C8 (L : Loader) (fuel : Nat) (dir : Dir) (rc : RawConfig)
    (ovs : List (String × ApiOverride))
    (hfs : L.fs dir = some rc)
    (hovs : rc.apiConfigRuleOverrides = some ovs)
    (hbc : ¬(effectiveBaseMode rc ≠ "empty" ∧ effectiveBaseMode rc ≠ "default" ∧
        effectiveBaseMode rc ≠ "parent"))
    (hnd : (ovs.map Prod.fst).Nodup)
    (hbad : ∃ p ∈ ovs.map Prod.fst, specBadPattern p) :
    (∀ q : String, isValidRulePattern q = false ↔ specBadPattern q)
    ∧ (isValidRulePattern "*" = false ∧ isValidRulePattern "**" = false
       ∧ isValidRulePattern "prefix_*_suffix" = false
       ∧ isValidRulePattern "a*" = true ∧ isValidRulePattern "no_wildcard" = true)
    ∧ (∃ q, q ∈ ovs.map Prod.fst ∧ specBadPattern q ∧
        loadConfig L fuel dir =
          .error (failLoadMsg (configPathStr dir) (invalidPatternMsg q (configPathStr dir)))
        ∧ Mentions (invalidPatternMsg q (configPathStr dir)) q
        ∧ Mentions (invalidPatternMsg q (configPathStr dir)) (configPathStr dir)) := by
  refine ⟨isValid_false_iff, by decide, ?_⟩
  have hbad2 : ∃ p ∈ ovs.map Prod.fst, isValidRulePattern p = false := by
    obtain ⟨p, hp, hps⟩ := hbad
    exact ⟨p, hp, (isValid_false_iff p).mpr hps⟩
  obtain ⟨q, hq, hqv, hrun⟩ := validateGo_error (configPathStr dir)
    (ovs.map Prod.fst) [] hnd (by simp) hbad2
  refine ⟨q, hq, (isValid_false_iff q).mp hqv, ?_, ?_, ?_⟩
  · rw [loadConfig, hfs]
    simp only
    rw [if_neg hbc]
    have hval : validateOverridesOf rc (configPathStr dir) =
        .error (invalidPatternMsg q (configPathStr dir)) := by
      simp only [validateOverridesOf, hovs, validateRulePatterns]
      exact hrun
    rw [hval]
  · apply mentions_append_left
    apply mentions_append_right
    exact mentions_refl _
  · apply mentions_append_right
    apply mentions_append_right
    apply mentions_append_left
    exact mentions_refl _

theorem specBadPattern_star : specBadPattern "*" := by
  constructor
  · decide
  · rintro ⟨pre, hne, _, heq⟩
    apply hne
    have hd := congrArg String.data heq
    have hlen := congrArg List.length hd
    simp only [strAppend_data, List.length_append] at hlen
    apply String.ext
    have : pre.data.length = 0 := by
      have h1 : ("*" : String).data.length = 1 := rfl
      have h2 : ("*" : String).data.length = pre.data.length + 1 := by
        rw [hlen]; rfl
      omega
    exact List.length_eq_zero.mp this

/-- Witness for C8 at a concrete input: the override key "*" in /proj's
config aborts the load with an error naming the pattern and the path. -/
theorem claim_C8_witness :
    loadConfig loaderC8 1 ["proj"] =
      .error (failLoadMsg (configPathStr ["proj"])
        (invalidPatternMsg "*" (configPathStr ["proj"]))) := by
  obtain ⟨-, -, q, hq, hqs, hrun, -, -⟩ :=
    claim_C8 loaderC8 1 ["proj"] rcBadPattern [("*", ovEmpty)] rfl rfl
      (by decide) (by decide) ⟨"*", by decide, specBadPattern_star⟩
  have hq0 : q = "*" := by
    simpa using hq
  rw [hq0] at hrun
  exact hrun

theorem takeCapture_eq (post : List Char) :
    ∀ name : List Char, name ≠ [] → rbrace ∉ name →
      ∃ h, takeCapture (name ++ rbrace :: post) = some (name, ⟨post, h⟩) := by
  intro name
  induction name with
  | nil => intro h _; exact absurd rfl h
  | cons c rest ih =>
    intro _ hnb
    have hcb : c ≠ rbrace := fun h => hnb (h ▸ List.mem_cons_self c rest)
    by_cases hr : rest = []
    · subst hr
      refine ⟨by simp only [List.singleton_append, List.length_cons]; omega, ?_⟩
      show takeCapture (c :: (rbrace :: post)) = _
      rw [takeCapture.eq_def]
      simp only [if_neg hcb]
      rw [takeCapture.eq_def]
      simp
    · obtain ⟨h2, ih2⟩ := ih hr (fun hm => hnb (List.mem_cons_of_mem c hm))
      refine ⟨by simp only [List.cons_append, List.length_cons, List.length_append]; omega, ?_⟩
      show takeCapture (c :: (rest ++ rbrace :: post)) = _
      rw [takeCapture.eq_def]
      simp only [if_neg hcb, List.append_eq]
      rw [ih2]

theorem expandChars_placeholder (e : Env) (name post : List Char)
    (hne : name ≠ []) (hnb : rbrace ∉ name) :
    expandChars e ('$' :: lbrace :: (name ++ rbrace :: post)) =
      (resolveVar e name).data ++ expandChars e post := by
  obtain ⟨h, hcap⟩ := takeCapture_eq post name hne hnb
  rw [expandChars]
  rw [if_pos ⟨rfl, rfl⟩, hcap]
  simp [hne]

theorem expandChars_plain (e : Env) :
    ∀ (pre rest : List Char), '$' ∉ pre →
      expandChars e (pre ++ rest) = pre ++ expandChars e rest := by
  intro pre
  induction pre with
  | nil => intro rest _; rfl
  | cons p tl ih =>
    intro rest hnd
    have hp : p ≠ '$' := fun h => hnd (h ▸ List.mem_cons_self p tl)
    have htl : '$' ∉ tl := fun h => hnd (List.mem_cons_of_mem p h)
    cases htlr : tl ++ rest with
    | nil =>
      have h1 : tl = [] := by
        cases tl with
        | nil => rfl
        | cons a b => simp at htlr
      have h2 : rest = [] := by
        rw [h1] at htlr
        simpa using htlr
      subst h1; subst h2
      simp [expandChars]
    | cons y ys =>
      show expandChars e (p :: (tl ++ rest)) = _
      rw [htlr, expandChars]
      rw [if_neg (fun hcon => hp hcon.1), ← htlr, ih rest htl]
      rw [List.cons_append]

theorem splitVarExpr_cons (c : Char) (rest : List Char) (hc : c ≠ ':') :
    splitVarExpr (c :: rest) = (c :: (splitVarExpr rest).1, (splitVarExpr rest).2) := by
  rw [splitVarExpr.eq_def]
  split
  · next heq => exact absurd heq (by simp)
  · next heq =>
    obtain ⟨h1, -⟩ := List.cons.inj heq
    exact absurd h1 hc
  · next heq =>
    obtain ⟨h1, h2⟩ := List.cons.inj heq
    subst h1
    subst h2
    rfl

theorem splitVarExpr_noColon :
    ∀ nm : List Char, ':' ∉ nm → splitVarExpr nm = (nm, []) := by
  intro nm
  induction nm with
  | nil => intro _; rfl
  | cons c rest ih =>
    intro h
    have hc : c ≠ ':' := fun hh => h (hh ▸ List.mem_cons_self c rest)
    have hr : ':' ∉ rest := fun hh => h (List.mem_cons_of_mem c hh)
    rw [splitVarExpr_cons c rest hc, ih hr]

theorem splitVarExpr_default :
    ∀ (nm dflt : List Char), ':' ∉ nm →
      splitVarExpr (nm ++ ':' :: '-' :: dflt) = (nm, dflt) := by
  intro nm
  induction nm with
  | nil => intro dflt _; rfl
  | cons c rest ih =>
    intro dflt h
    have hc : c ≠ ':' := fun hh => h (hh ▸ List.mem_cons_self c rest)
    have hr : ':' ∉ rest := fun hh => h (List.mem_cons_of_mem c hh)
    show splitVarExpr (c :: (rest ++ ':' :: '-' :: dflt)) = _
    rw [splitVarExpr_cons c _ hc, ih dflt hr]

/-- Claim C9: placeholder expansion.  A field with no placeholder opener is
passed through unchanged; a `\${NAME}` placeholder is replaced by the
environment variable's value when it is set and non-empty and by the (empty)
literal default otherwise; a `\${NAME:-default}` placeholder is replaced by
the variable's value when set and non-empty and by the literal default text
when the variable is unset or empty; `expandApiConfig` applies this to each
of the four API-parameter fields. -/
theorem claim_C9 (e : Env) (v : String) (pre nm dflt post : List Char)
    (hpre : '$' ∉ pre) (hnm : nm ≠ []) (hb1 : rbrace ∉ nm) (hc1 : ':' ∉ nm)
    (hb2 : rbrace ∉ dflt) :
    (hasDollarBrace v.data = false → expandField e v = v)
    ∧ (∀ w : String, e.dotenv ⟨nm⟩ = none → e.procEnv ⟨nm⟩ = some w → w ≠ "" →
        expandChars e (pre ++ ('$' :: lbrace :: (nm ++ rbrace :: post))) =
          pre ++ (w.data ++ expandChars e post))
    ∧ (e.dotenv ⟨nm⟩ = none → e.procEnv ⟨nm⟩ = none →
        expandChars e (pre ++ ('$' :: lbrace :: (nm ++ rbrace :: post))) =
          pre ++ expandChars e post)
    ∧ (∀ w : String, e.dotenv ⟨nm⟩ = none → e.procEnv ⟨nm⟩ = some w → w ≠ "" →
        expandChars e
            (pre ++ ('$' :: lbrace :: ((nm ++ ':' :: '-' :: dflt) ++ rbrace :: post))) =
          pre ++ (w.data ++ expandChars e post))
    ∧ (e.dotenv ⟨nm⟩ = none →
        (e.procEnv ⟨nm⟩ = none ∨ e.procEnv ⟨nm⟩ = some "") →
        expandChars e
            (pre ++ ('$' :: lbrace :: ((nm ++ ':' :: '-' :: dflt) ++ rbrace :: post))) =
          pre ++ (dflt ++ expandChars e post))
    ∧ (∀ c : ApiConfig, expandApiConfig e c =
        ⟨expandField e c.baseUrl, expandField e c.modelName,
         expandField e c.apiKey, expandField e c.temperature⟩) := by
  have hcapb : rbrace ∉ nm ++ ':' :: '-' :: dflt := by
    intro hmem
    rcases List.mem_append.mp hmem with h | h
    · exact hb1 h
    · rcases List.mem_cons.mp h with h2 | h2
      · exact absurd h2.symm (by decide)
      · rcases List.mem_cons.mp h2 with h3 | h3
        · exact absurd h3.symm (by decide)
        · exact hb2 h3
  have hres1 : resolveVar e nm = jsOrOpt (e.dotenv ⟨nm⟩) (jsOrOpt (e.procEnv ⟨nm⟩) "") := by
    rw [resolveVar, splitVarExpr_noColon nm hc1]
  have hres2 : resolveVar e (nm ++ ':' :: '-' :: dflt) =
      jsOrOpt (e.dotenv ⟨nm⟩) (jsOrOpt (e.procEnv ⟨nm⟩) ⟨dflt⟩) := by
    rw [resolveVar, splitVarExpr_default nm dflt hc1]
  refine ⟨?_, ?_, ?_, ?_, ?_, fun c => rfl⟩
  · intro hno
    rw [expandField, if_neg (by rw [hno]; exact Bool.false_ne_true)]
  · intro w hd hp hw
    rw [expandChars_plain e pre _ hpre,
      expandChars_placeholder e nm post hnm hb1, hres1, hd, hp]
    simp [jsOrOpt, hw]
  · intro hd hp
    rw [expandChars_plain e pre _ hpre,
      expandChars_placeholder e nm post hnm hb1, hres1, hd, hp]
    simp [jsOrOpt]
  · intro w hd hp hw
    rw [expandChars_plain e pre _ hpre,
      expandChars_placeholder e (nm ++ ':' :: '-' :: dflt) post (by simp) hcapb,
      hres2, hd, hp]
    simp [jsOrOpt, hw]
  · intro hd hp
    rw [expandChars_plain e pre _ hpre,
      expandChars_placeholder e (nm ++ ':' :: '-' :: dflt) post (by simp) hcapb,
      hres2, hd]
    rcases hp with hp | hp <;> rw [hp] <;> simp [jsOrOpt]

/-- Witness for C9 at concrete inputs: `m=\${MODEL}/x` expands with the set
variable, and `\${EMPTY:-fallback}` falls back to the literal default. -/
theorem claim_C9_witness :
    expandChars e9 ("m=".data ++ ('$' :: lbrace :: ("MODEL".data ++ rbrace :: "/x".data))) =
      "m=".data ++ ("gpt".data ++ expandChars e9 "/x".data) :=
  (claim_C9 e9 "plain" "m=".data "MODEL".data "0.5".data "/x".data
    (by decide) (by decide) (by decide) (by decide) (by decide)).2.1
    "gpt" rfl (by decide) (by decide)

theorem matchCmp_lt_iff (a b : MatchRec) : matchCmp a b = .lt ↔ specBetter a b := by
  unfold matchCmp specBetter
  rcases ha : a.isExact <;> rcases hb : b.isExact <;>
    by_cases hp : a.prefixLength = b.prefixLength <;>
    simp_all

theorem specBetter_irrefl (a : MatchRec) : ¬ specBetter a a := by
  unfold specBetter
  rcases ha : a.isExact <;> simp

theorem specBetter_trans (a b c : MatchRec)
    (h1 : specBetter a b) (h2 : specBetter b c) : specBetter a c := by
  unfold specBetter at *
  rcases ha : a.isExact <;> rcases hb : b.isExact <;> rcases hc : c.isExact <;>
    simp_all <;> omega

theorem specBetter_total (a b : MatchRec) :
    specBetter a b ∨ specBetter b a ∨
      (a.isExact = b.isExact ∧ a.prefixLength = b.prefixLength ∧ a.depth = b.depth) := by
  unfold specBetter
  rcases ha : a.isExact <;> rcases hb : b.isExact <;> simp_all <;> omega

theorem specBetter_congr (a b x : MatchRec)
    (he : a.isExact = b.isExact) (hp : a.prefixLength = b.prefixLength)
    (hd : a.depth = b.depth) : specBetter a x ↔ specBetter b x := by
  unfold specBetter
  rw [he, hp, hd]

theorem foldBest_spec (l : List MatchRec) :
    ∀ best : MatchRec,
      (l.foldl (fun best c => if matchCmp c best = .lt then c else best) best = best ∨
       l.foldl (fun best c => if matchCmp c best = .lt then c else best) best ∈ l)
      ∧ ∀ x ∈ best :: l, ¬ specBetter x
          (l.foldl (fun best c => if matchCmp c best = .lt then c else best) best) := by
  induction l with
  | nil =>
    intro best
    refine ⟨Or.inl rfl, ?_⟩
    intro x hx
    simp only [List.foldl_nil, List.mem_singleton] at hx ⊢
    subst hx
    exact specBetter_irrefl _
  | cons c rest ih =>
    intro best
    simp only [List.foldl_cons]
    obtain ⟨hmem, hmin⟩ := ih (if matchCmp c best = .lt then c else best)
    constructor
    · rcases hmem with h | h
      · by_cases hc : matchCmp c best = .lt
        · right
          rw [h, if_pos hc]
          exact List.mem_cons_self c rest
        · left
          rw [h, if_neg hc]
      · right
        exact List.mem_cons_of_mem c h
    · intro x hx
      set r := rest.foldl (fun best c => if matchCmp c best = .lt then c else best)
        (if matchCmp c best = .lt then c else best) with hr
      have hminb2 : ¬ specBetter (if matchCmp c best = .lt then c else best) r :=
        hmin _ (List.mem_cons_self _ rest)
      have hminrest : ∀ y ∈ rest, ¬ specBetter y r :=
        fun y hy => hmin y (List.mem_cons_of_mem _ hy)
      rcases List.mem_cons.mp hx with rfl | hx2
      · -- x is the incoming champion
        by_cases hc : matchCmp c x = .lt
        · intro hbr
          have hcb : specBetter c x := (matchCmp_lt_iff c x).mp hc
          have hcr : specBetter c r := specBetter_trans c x r hcb hbr
          rw [if_pos hc] at hminb2
          exact hminb2 hcr
        · rw [if_neg hc] at hminb2
          exact hminb2
      rcases List.mem_cons.mp hx2 with rfl | hx3
      · -- x is the head of the remaining list
        by_cases hc : matchCmp x best = .lt
        · rw [if_pos hc] at hminb2
          exact hminb2
        · rw [if_neg hc] at hminb2
          intro hcr
          have hnc : ¬ specBetter x best := fun hb => hc ((matchCmp_lt_iff x best).mpr hb)
          rcases specBetter_total x best with h1 | h1 | h1
          · exact hnc h1
          · exact hminb2 (specBetter_trans best x r h1 hcr)
          · exact hminb2 ((specBetter_congr x best r h1.1 h1.2.1 h1.2.2).mp hcr)
      · exact hminrest x hx3

theorem pickBest_mem (l : List MatchRec) (m : MatchRec) (h : pickBest l = some m) :
    m ∈ l := by
  cases l with
  | nil => cases h
  | cons a rest =>
    simp only [pickBest, Option.some.injEq] at h
    rcases (foldBest_spec rest a).1 with h1 | h1
    · rw [← h, h1]
      exact List.mem_cons_self a rest
    · rw [← h]
      exact List.mem_cons_of_mem a h1

theorem pickBest_min (l : List MatchRec) (m : MatchRec) (h : pickBest l = some m) :
    ∀ x ∈ l, ¬ specBetter x m := by
  cases l with
  | nil => cases h
  | cons a rest =>
    simp only [pickBest, Option.some.injEq] at h
    intro x hx
    rw [← h]
    exact (foldBest_spec rest a).2 x hx

/-- Claim C1: whenever `findBestMatchingOverride` (as used by
`resolveApiConfigForFile`) selects a match over the configs collected from
a start directory up to the root, that match belongs to the collected
matches and no collected match is ranked strictly better by the claimed
order — exact over wildcard, then longer non-wildcard prefix, then smaller
walk distance. -/
theorem claim_C1 (load : Dir → Option AilintConfig) (dir : Dir) (ruleName : String)
    (best : MatchRec)
    (h : findBestMatchingOverride ruleName (collectConfigsWithPaths load dir 0) = some best) :
    best ∈ matchesForRule ruleName (collectConfigsWithPaths load dir 0)
    ∧ ∀ m ∈ matchesForRule ruleName (collectConfigsWithPaths load dir 0),
        ¬ specBetter m best := by
  unfold findBestMatchingOverride at h
  exact ⟨pickBest_mem _ best h, pickBest_min _ best h⟩

/-- Witness for C1 at the spec's example: `test_*` and `test_security_*` in
the outer directory, exact `test_security_auth` in the inner one — the exact
inner match wins and nothing outranks it. -/
theorem claim_C1_witness :
    bestC1 ∈ matchesForRule "test_security_auth"
      (collectConfigsWithPaths loadC1 ["src", "proj"] 0)
    ∧ ∀ m ∈ matchesForRule "test_security_auth"
        (collectConfigsWithPaths loadC1 ["src", "proj"] 0),
        ¬ specBetter m bestC1 :=
  claim_C1 loadC1 ["src", "proj"] "test_security_auth" bestC1 (by decide)

/-- C2 evaluated at the failing input: with a config at walk distance 0
carrying parameters `apiA` and an ancestor config at walk distance 1
carrying `apiB`, and no override matching anywhere, the code returns the
LAST collected entry — the root-most config's `apiB` — although the nearest
config (the head of the collected list) carries `apiA`.  This contradicts
both the claim and the source's own comment ("return the base config from
the most specific directory"). -/
theorem claim_C2_eval :
    resolveApiConfigForDir loadC2 ["sub"] "some_rule" = .ok (some apiB)
    ∧ apiB ≠ apiA
    ∧ (collectConfigsWithPaths loadC2 ["sub"] 0).head? =
        some ⟨cfgNearA, ["sub"], 0⟩
    ∧ matchesForRule "some_rule" (collectConfigsWithPaths loadC2 ["sub"] 0) = [] := by
  exact ⟨rfl, by decide, by decide, by decide⟩

theorem validateRulesGo_error (resolve : String → String → Option ApiConfig) :
    ∀ (pre : List AISpecRule) (r : AISpecRule) (rest : List AISpecRule),
      (∀ q ∈ pre, (distinctConfigs resolve q).length ≤ 1) →
      1 < (distinctConfigs resolve r).length →
      validateRulesGo resolve (pre ++ r :: rest) =
        .error (conflictMsg r.name (distinctConfigs resolve r)
          (r.blocks.map (fun b => b.filePath))) := by
  intro pre
  induction pre with
  | nil =>
    intro r rest _ hconf
    simp only [List.nil_append, validateRulesGo]
    rw [if_pos hconf]
  | cons q pre2 ih =>
    intro r rest hpre hconf
    simp only [List.cons_append, validateRulesGo]
    rw [if_neg (by have := hpre q (List.mem_cons_self q pre2); omega)]
    exact ih r rest (fun p hp => hpre p (List.mem_cons_of_mem q hp)) hconf

/-- Claim C3 (amended): for the first rule whose blocks resolve to more than
one distinct parameter tuple, `validateRules` aborts — for EVERY oracle, so
before any oracle chat-completion call can take effect — with an error that
names the rule, every implicated block file path, and the `baseUrl` and
`modelName` of each distinct conflicting tuple (the other two tuple fields
are not printed). -/
theorem claim_C3_amended (S : SendRulesToAI)
    (resolve : String → String → Option ApiConfig)
    (pre rest : List AISpecRule) (r : AISpecRule) (oracle : Oracle)
    (hscan : S.directoryScanner = some resolve)
    (hpre : ∀ q ∈ pre, (distinctConfigs resolve q).length ≤ 1)
    (hconf : 1 < (distinctConfigs resolve r).length) :
    validateRules S oracle (pre ++ r :: rest) =
      .error (conflictMsg r.name (distinctConfigs resolve r)
        (r.blocks.map (fun b => b.filePath)))
    ∧ Mentions (conflictMsg r.name (distinctConfigs resolve r)
        (r.blocks.map (fun b => b.filePath))) r.name
    ∧ (∀ p ∈ r.blocks.map (fun b => b.filePath),
        Mentions (conflictMsg r.name (distinctConfigs resolve r)
          (r.blocks.map (fun b => b.filePath))) p)
    ∧ (∀ c ∈ distinctConfigs resolve r, ∀ t : ApiConfig, c = some t →
        Mentions (conflictMsg r.name (distinctConfigs resolve r)
          (r.blocks.map (fun b => b.filePath))) t.baseUrl
        ∧ Mentions (conflictMsg r.name (distinctConfigs resolve r)
            (r.blocks.map (fun b => b.filePath))) t.modelName) := by
  refine ⟨?_, ?_, ?_, ?_⟩
  · unfold validateRules
    have hval : validateRuleConfigurations S.directoryScanner (pre ++ r :: rest) =
        .error (conflictMsg r.name (distinctConfigs resolve r)
          (r.blocks.map (fun b => b.filePath))) := by
      rw [validateRuleConfigurations.eq_def, hscan]
      exact validateRulesGo_error resolve pre r rest hpre hconf
    rw [hval]
    rfl
  · apply mentions_append_right
    apply mentions_append_left
    exact mentions_refl _
  · intro p hp
    apply mentions_append_right
    apply mentions_append_right
    apply mentions_append_right
    apply mentions_append_right
    apply mentions_append_right
    apply mentions_append_left
    exact mentions_trans _ ("  - " ++ p) p
      (mentions_joinSep "\n" _ ("  - " ++ p) (List.mem_map_of_mem _ hp))
      (mentions_append_right _ _ _ (mentions_refl p))
  · intro c hc t hct
    subst hct
    have hdet : Mentions (joinSep " vs " ((distinctConfigs resolve r).map configDetail))
        (configDetail (some t)) :=
      mentions_joinSep " vs " _ _ (List.mem_map_of_mem configDetail hc)
    constructor
    · apply mentions_append_right
      apply mentions_append_right
      apply mentions_append_right
      apply mentions_append_left
      refine mentions_trans _ (configDetail (some t)) t.baseUrl hdet ?_
      apply mentions_append_right
      apply mentions_append_left
      exact mentions_refl _
    · apply mentions_append_right
      apply mentions_append_right
      apply mentions_append_right
      apply mentions_append_left
      refine mentions_trans _ (configDetail (some t)) t.modelName hdet ?_
      apply mentions_append_right
      apply mentions_append_right
      apply mentions_append_right
      apply mentions_append_left
      exact mentions_refl _

set_option maxRecDepth 8192 in
/-- Counterexample for C3: the two blocks of the rule resolve to two
DISTINCT tuples that differ only in `apiKey`; the run aborts, but the error
message contains neither key, so the distinct conflicting tuples are not
named (their printed renderings are identical). -/
theorem claim_C3_counterexample :
    distinctConfigs resolveC3 ruleC3 = [some apiK1, some apiK2]
    ∧ apiK1 ≠ apiK2
    ∧ validateRules S3 oracle0 [ruleC3] =
        .error (conflictMsg "r" [some apiK1, some apiK2] ["f1.ts", "f2.ts"])
    ∧ strIncludes (conflictMsg "r" [some apiK1, some apiK2] ["f1.ts", "f2.ts"])
        "KEYA" = false
    ∧ strIncludes (conflictMsg "r" [some apiK1, some apiK2] ["f1.ts", "f2.ts"])
        "KEYB" = false := by
  refine ⟨by decide, by decide, rfl, by decide, by decide⟩

/-- Witness for the amended C3 at a concrete input. -/
theorem claim_C3_amended_witness :
    validateRules S3 oracle0 ([] ++ ruleC3 :: []) =
      .error (conflictMsg ruleC3.name (distinctConfigs resolveC3 ruleC3)
        (ruleC3.blocks.map (fun b => b.filePath))) :=
  (claim_C3_amended S3 resolveC3 [] [] ruleC3 oracle0 rfl
    (by intro q hq; cases hq) (by decide)).1

end Ailint
